import Mathlib
set_option maxRecDepth 8000

/-!
# Verification of the passgage-faq-bot decision pipeline

Shallow embedding of the core request-answering pipeline of the
`passgage/passgage-faq-bot` repository:

* the Turkish text normalizer (`src/utils/turkish-normalizer.ts`:
  `normalizeTurkish`, `TURKISH_TYPO_MAP`, `hashString`),
* the embedding cache (`src/cache/embedding-cache.ts`),
* the tiered decision logic of `POST /api/ask` (`src/index.ts`),
* the fixed-window rate limiter (`src/middleware/auth.ts`).

Strings are modelled as `List Char`; JavaScript number arithmetic on
similarity scores is modelled with `ℚ`; 32-bit integer arithmetic in the
string hash is modelled with `Int` plus explicit reduction mod `2 ^ 32`.
The shared key-value store is an association list, and store operations
that may throw are modelled by explicit success flags.  JavaScript
`toLowerCase` is modelled on the character range the program manipulates
(ASCII plus the Turkish letters); other characters are left unchanged,
which is observationally equivalent here because the normalizer strips
every character outside its kept alphabet.
-/

namespace Passgage

/-! ## Character-level primitives of the JavaScript runtime -/

/-- Word characters of a JavaScript regular expression `\b` boundary
(ASCII letters, digits and underscore; regexes are not in unicode mode). -/
def isWordChar (c : Char) : Bool :=
  ('a' ≤ c && c ≤ 'z') || ('A' ≤ c && c ≤ 'Z') || ('0' ≤ c && c ≤ '9') || c == '_'

/-- The JavaScript `\s` character class (also the character set stripped by
`String.prototype.trim`). -/
def isJsSpace (c : Char) : Bool :=
  c == ' ' || c == '\t' || c == '\n' || c == '\r' ||
  c.toNat == 11 || c.toNat == 12 || c.toNat == 0xa0 || c.toNat == 0x1680 ||
  (0x2000 ≤ c.toNat && c.toNat ≤ 0x200a) ||
  c.toNat == 0x2028 || c.toNat == 0x2029 || c.toNat == 0x202f ||
  c.toNat == 0x205f || c.toNat == 0x3000 || c.toNat == 0xfeff

/-- Lowercase Turkish letters used by the normalizer. -/
def isTurkishLower (c : Char) : Bool :=
  c == 'ç' || c == 'ğ' || c == 'ı' || c == 'ö' || c == 'ş' || c == 'ü'

/-- Uppercase Turkish letters (matched case-insensitively by the keep class). -/
def isTurkishUpper (c : Char) : Bool :=
  c == 'Ç' || c == 'Ğ' || c == 'İ' || c == 'Ö' || c == 'Ş' || c == 'Ü'

/-- Characters kept by step 3 of the normalizer, the class
`[^a-zçğıöşü0-9\s?]` with the `i` flag negated: ASCII letters, Turkish
letters (both cases), digits, whitespace and the question mark. -/
def isKeptChar (c : Char) : Bool :=
  ('a' ≤ c && c ≤ 'z') || ('A' ≤ c && c ≤ 'Z') ||
  isTurkishLower c || isTurkishUpper c ||
  ('0' ≤ c && c ≤ '9') || isJsSpace c || c == '?'

/-- JavaScript `toLowerCase` on one character, modelled on the range the
program manipulates: ASCII `A`-`Z`, the uppercase Turkish letters, and the
dotted capital `İ` (which lowercases to `i` followed by a combining dot,
U+0307).  Other characters are returned unchanged. -/
def lowerChar (c : Char) : List Char :=
  if 'A' ≤ c && c ≤ 'Z' then [Char.ofNat (c.toNat + 32)]
  else if c == 'Ç' then ['ç']
  else if c == 'Ğ' then ['ğ']
  else if c == 'İ' then ['i', Char.ofNat 0x307]
  else if c == 'Ö' then ['ö']
  else if c == 'Ş' then ['ş']
  else if c == 'Ü' then ['ü']
  else [c]

/-- `text.toLowerCase()` over a character list. -/
def jsLower (s : List Char) : List Char := s.flatMap lowerChar

/-- `text.trim()`: drop leading and trailing JavaScript whitespace. -/
def jsTrim (s : List Char) : List Char :=
  ((s.dropWhile isJsSpace).reverse.dropWhile isJsSpace).reverse

/-- `text.replace(/\s+/g, ' ')`: collapse every maximal whitespace run to a
single space. -/
def collapseWs : List Char → List Char
  | [] => []
  | [c] => if isJsSpace c then [' '] else [c]
  | c1 :: c2 :: rest =>
    if isJsSpace c1 && isJsSpace c2 then collapseWs (c2 :: rest)
    else (if isJsSpace c1 then ' ' else c1) :: collapseWs (c2 :: rest)

/-- `text.replace(/[^a-zçğıöşü0-9\s?]/gi, ' ')`: replace every character
outside the kept class by a space. -/
def stripToSpace (s : List Char) : List Char :=
  s.map fun c => if isKeptChar c then c else ' '

/-! ## Whole-word replacement (`new RegExp('\\b' + typo + '\\b', 'gi')`) -/

/-- Wordness of an optional character; the absent character (string edge)
counts as a non-word position for `\b`. -/
def isWordOpt : Option Char → Bool
  | none => false
  | some c => isWordChar c

/-- Does the literal pattern `\b k \b` match at the start of `s`, where
`prev` is the character immediately before this position in the scanned
string?  (`\b` holds between two positions of different wordness.) -/
def matchesAt (k : List Char) (prev : Option Char) (s : List Char) : Bool :=
  !k.isEmpty && k.isPrefixOf s && (isWordOpt prev != isWordOpt k.head?) &&
    (isWordOpt k.getLast? != isWordOpt ((s.drop k.length).head?))

/-- One pass of `String.prototype.replace` with a global whole-word regex:
scan left to right over the original string, emitting the replacement `v`
for every (non-overlapping) match of `\b k \b` and copying other characters.
The fuel argument only serves structural recursion; `fuel = s.length`
always suffices because every step consumes at least one character. -/
def rwGo (k v : List Char) : Nat → Option Char → List Char → List Char
  | 0, _, s => s
  | _ + 1, _, [] => []
  | fuel + 1, prev, c :: cs =>
    if matchesAt k prev (c :: cs) then
      v ++ rwGo k v fuel k.getLast? ((c :: cs).drop k.length)
    else
      c :: rwGo k v fuel (some c) cs

/-- `s.replace(new RegExp('\\b' + k + '\\b', 'gi'), v)` (the scanned text is
already lowercase when the normalizer runs this, so the `i` flag is inert). -/
def replaceWordAll (k v s : List Char) : List Char := rwGo k v s.length none s

/-- `TURKISH_TYPO_MAP` from src/utils/turkish-normalizer.ts, in insertion
order (the order `Object.entries` iterates). -/
def TURKISH_TYPO_MAP : List (String × String) :=
  [("sifre", "şifre"), ("sifremi", "şifremi"), ("sifreyi", "şifreyi"),
   ("sifreni", "şifreni"),
   ("giris", "giriş"), ("girisi", "girişi"), ("girise", "girişe"),
   ("cikis", "çıkış"),
   ("unuttum", "unuttum"), ("unutdum", "unuttum"), ("unutdun", "unuttun"),
   ("unutmus", "unutmuş"),
   ("gelmiyo", "gelmiyor"), ("gelmiyor", "gelmiyor"), ("gelmedi", "gelmedi"),
   ("gönder", "gönder"), ("gonder", "gönder"),
   ("okuturken", "okuturken"), ("okutunca", "okuturken"),
   ("okuttuğumda", "okuturken"), ("okuttugumda", "okuturken"),
   ("doğrulama", "doğrulama"), ("dogrulama", "doğrulama"),
   ("doğrulanamadı", "doğrulanamadı"), ("dogrulanamadi", "doğrulanamadı"),
   ("konum", "konum"), ("konumu", "konumu"),
   ("vardiya", "vardiya"), ("vardiyam", "vardiyam"),
   ("vardiyami", "vardiyamı"), ("vardiyayi", "vardiyayı"),
   ("değiştir", "değiştir"), ("degistir", "değiştir"),
   ("değişiklik", "değişiklik"), ("degisiklik", "değişiklik"),
   ("güncelle", "güncelle"), ("guncelle", "güncelle"),
   ("hata", "hata"), ("hatası", "hatası"), ("hatasi", "hatası"),
   ("sorun", "sorun"), ("sorunu", "sorunu"),
   ("geçersiz", "geçersiz"), ("gecersiz", "geçersiz"),
   ("kullanıcı", "kullanıcı"), ("kullanici", "kullanıcı"),
   ("bulunmadı", "bulunmadı"), ("bulunmadi", "bulunmadı"),
   ("bulunamadı", "bulunamadı"), ("bulunamadi", "bulunamadı"),
   ("bulamıyorum", "bulamıyorum"), ("bulamiyorum", "bulamıyorum"),
   ("göremiyorum", "göremiyorum"), ("goremiyorum", "göremiyorum"),
   ("görüntüle", "görüntüle"), ("gorunte", "görüntüle"),
   ("yapamıyorum", "yapamıyorum"), ("yapamiyorum", "yapamıyorum"),
   ("napcam", "ne yapacağım"), ("napcaz", "ne yapacağız"),
   ("açılmıyor", "açılmıyor"), ("acilmiyor", "açılmıyor"),
   ("çalışmıyor", "çalışmıyor"), ("calismiyor", "çalışmıyor"),
   ("çalışıyor", "çalışıyor"), ("calisiyor", "çalışıyor"),
   ("sosyal medya", "sosyal medya"),
   ("buradayım", "buradayım"), ("buradayim", "buradayım"),
   ("için", "için"), ("icin", "için"),
   ("nasıl", "nasıl"), ("nasil", "nasıl"),
   ("neden", "neden"), ("niçin", "niçin"), ("nicin", "niçin"),
   ("niye", "niye")]

/-- Step 4 of the normalizer: apply every typo-map entry in order. -/
def applyTypoMap (s : List Char) : List Char :=
  TURKISH_TYPO_MAP.foldl (fun acc e => replaceWordAll e.1.data e.2.data acc) s

/-- `normalizeTurkish` on character lists: lowercase and trim, collapse
whitespace, strip characters outside the kept class, apply the typo map,
then collapse and trim again. -/
def normalizeTurkishL (s : List Char) : List Char :=
  jsTrim (collapseWs (applyTypoMap (stripToSpace (collapseWs (jsTrim (jsLower s))))))

/-- `normalizeTurkish(text)` from src/utils/turkish-normalizer.ts.  A falsy
input (the empty string) short-circuits to the empty string. -/
def normalizeTurkish (s : String) : String :=
  if s = "" then "" else ⟨normalizeTurkishL s.data⟩

/-! ## `hashString` and the embedding cache key -/

/-- JavaScript `ToInt32`: reduce an integer to the signed 32-bit range. -/
def toInt32 (n : Int) : Int := (n + 2 ^ 31) % 2 ^ 32 - 2 ^ 31

/-- One step of the hash loop `hash = (hash << 5) - hash + char; hash &= hash`:
the shift truncates to 32 bits, the subtraction and addition are exact, and
the final bitwise and reduces to 32 bits again. -/
def hashStep (h : Int) (c : Char) : Int :=
  toInt32 (toInt32 (h * 32) - h + c.toNat)

/-- Digit characters of `Number.prototype.toString(36)`: `0`-`9` then `a`-`z`. -/
def base36Char (d : Nat) : Char :=
  if d < 10 then Char.ofNat (48 + d) else Char.ofNat (87 + d)

/-- Big-endian base-36 digits of `n` (empty for `0`); fuel-based structural
recursion, `fuel = n` suffices. -/
def base36Go : Nat → Nat → List Char
  | 0, _ => []
  | _ + 1, 0 => []
  | fuel + 1, n + 1 => base36Go fuel ((n + 1) / 36) ++ [base36Char ((n + 1) % 36)]

/-- `n.toString(36)` for a natural number. -/
def natToBase36 (n : Nat) : String :=
  if n = 0 then "0" else ⟨base36Go n n⟩

/-- `hashString(text)` from src/utils/turkish-normalizer.ts: fold the 32-bit
hash over the UTF-16 units of the text, then render `Math.abs(hash)` in
base 36.  (The texts handled here lie in the basic multilingual plane, so
code points coincide with UTF-16 units.) -/
def hashString (s : String) : String :=
  natToBase36 (s.data.foldl hashStep 0).natAbs

/-- The embedding cache key
`` `emb:${hashString(question)}:${question.substring(0, 20)}` ``
built by `getEmbeddingWithCache` (src/cache/embedding-cache.ts line 44). -/
def cacheKeyFor (question : String) : String :=
  "emb:" ++ hashString question ++ ":" ++ question.take 20

/-! ## Search results and the `/api/ask` decision (src/index.ts) -/

/-- An FAQ as stored in Vectorize metadata (src/types.ts `FAQ`). -/
structure FAQ where
  id : String
  question : String
  answer : String
  category : String
deriving Repr, DecidableEq

/-- `SearchResult` from src/types.ts; similarity scores are modelled in `ℚ`. -/
structure SearchResult where
  faq : FAQ
  score : ℚ
deriving Repr, DecidableEq

/-- `FAQSuggestion` from src/types.ts. -/
structure FAQSuggestion where
  question : String
  id : String
  category : String
deriving Repr, DecidableEq

/-- The JSON body of a `/api/ask` response (src/types.ts `AskResponse`)
together with its HTTP status.  Optional JSON fields are `Option`s; the
`fuzzy` flag is `false` when absent. -/
structure AskResponse where
  success : Bool
  status : Nat := 200
  fuzzy : Bool := false
  answer : Option String := none
  confidence : Option ℚ := none
  matchedQuestion : Option String := none
  suggestedQuestion : Option String := none
  category : Option String := none
  suggestions : Option (List FAQSuggestion) := none
  message : Option String := none
deriving Repr, DecidableEq

/-- "Soru metni boş olamaz." — the validation-error message. -/
def emptyQuestionMessage : String := "Soru metni boş olamaz."

/-- The no-match message of `/api/ask`. -/
def noMatchMessage : String :=
  "Sorunuzla eşleşen bir cevap bulunamadı. Lütfen destek ekibimizle iletişime geçin."

/-- The generic internal-error message of `/api/ask`. -/
def genericErrorMessage : String := "Bir hata oluştu. Lütfen tekrar deneyin."

/-- The "did you mean" message of the fuzzy branch. -/
def didYouMeanMessage (q : String) : String :=
  "Şunu mu demek istediniz: \"" ++ q ++ "\"?"

/-- Projection of a search result to a suggestion, as the handler's `.map`. -/
def toSuggestion (r : SearchResult) : FAQSuggestion :=
  ⟨r.faq.question, r.faq.id, r.faq.category⟩

/-- The decision tail of `POST /api/ask` (src/index.ts lines 144-256): given
the ranked search results and the two thresholds, produce the response.
`results.slice(1)`, `results.slice(1, 3)` and `results.slice(0, 3)` become
`rest`, `rest.take 2` and `(best :: rest).take 3`. -/
def askDecision (results : List SearchResult)
    (primaryThreshold fuzzyThreshold : ℚ) : AskResponse :=
  match results with
  | [] =>
    { success := false
      message := some noMatchMessage
      suggestions := some [] }
  | best :: rest =>
    if primaryThreshold ≤ best.score then
      { success := true
        answer := some best.faq.answer
        confidence := some best.score
        matchedQuestion := some best.faq.question
        category := some best.faq.category
        suggestions := some (rest.map toSuggestion) }
    else if fuzzyThreshold ≤ best.score then
      { success := false
        fuzzy := true
        confidence := some best.score
        suggestedQuestion := some best.faq.question
        answer := some best.faq.answer
        category := some best.faq.category
        message := some (didYouMeanMessage best.faq.question)
        suggestions := some ((rest.take 2).map toSuggestion) }
    else
      { success := false
        message := some noMatchMessage
        suggestions := some (((best :: rest).take 3).map toSuggestion) }

/-! ## The rate limiter (src/middleware/auth.ts `rateLimiter`) -/

/-- The JSON record stored under `ratelimit:<ip>`. -/
structure RateLimitRecord where
  count : Nat
  resetTime : Nat
deriving Repr, DecidableEq

/-- Outcome of one pass through the middleware: the request proceeds to the
handler, is rejected with 429 and a retry-after value, or an exception from
an awaited store operation propagates (no `try`/`catch` in `rateLimiter`). -/
inductive RateLimitOutcome where
  | proceed
  | reject (retryAfterSeconds : Nat)
  | storeError
deriving Repr, DecidableEq

/-- `Math.ceil(ms / 1000)` on a nonnegative number of milliseconds. -/
def ceilSeconds (ms : Nat) : Nat := (ms + 999) / 1000

/-- The `rateLimiter` middleware for one request.  `hasKV` is whether the
`RATE_LIMIT_KV` binding exists (the whole block is skipped without it);
`store` is the record currently under the client's key; `getOk` and `putOk`
tell whether the awaited `KV.get` / `KV.put` succeed (a failing awaited
operation throws and propagates).  Returns the outcome and the record left
in the store. -/
def rateLimiter (hasKV : Bool) (maxRequests now : Nat)
    (store : Option RateLimitRecord) (getOk putOk : Bool) :
    RateLimitOutcome × Option RateLimitRecord :=
  if hasKV then
    if getOk then
      match store with
      | some r =>
        if now < r.resetTime then
          if maxRequests ≤ r.count then
            (.reject (ceilSeconds (r.resetTime - now)), store)
          else
            if putOk then (.proceed, some ⟨r.count + 1, r.resetTime⟩)
            else (.storeError, store)
        else
          if putOk then (.proceed, some ⟨1, now + 60000⟩)
          else (.storeError, store)
      | none =>
        if putOk then (.proceed, some ⟨1, now + 60000⟩)
        else (.storeError, store)
    else (.storeError, store)
  else (.proceed, store)

/-- One fully healthy rate-limiter step (binding present, store working). -/
def admitStep (maxRequests now : Nat) (store : Option RateLimitRecord) :
    RateLimitOutcome × Option RateLimitRecord :=
  rateLimiter true maxRequests now store true true

/-- Process a sequence of request timestamps through the healthy limiter,
returning the final stored record and the outcomes in order. -/
def runRequests (maxRequests : Nat) :
    Option RateLimitRecord → List Nat → Option RateLimitRecord × List RateLimitOutcome
  | store, [] => (store, [])
  | store, t :: ts =>
    let step := admitStep maxRequests t store
    let rest := runRequests maxRequests step.2 ts
    (rest.1, step.1 :: rest.2)

/-! ## The embedding cache (src/cache/embedding-cache.ts) -/

/-- A cache entry `{embedding, question, timestamp}`. -/
structure CacheEntry where
  embedding : List ℚ
  question : String
  timestamp : Nat
deriving Repr, DecidableEq

/-- The statistics record stored under `cache:stats`. -/
structure CacheStats where
  totalQueries : Nat
  cacheHits : Nat
  cacheMisses : Nat
  hitRate : ℚ
  lastReset : String
deriving Repr, DecidableEq

/-- A value in the shared key-value store. -/
inductive KVValue where
  | entry (e : CacheEntry)
  | stats (s : CacheStats)
deriving Repr, DecidableEq

/-- The shared key-value store, as an association list with unique keys. -/
abbrev Store := List (String × KVValue)

/-- `KV.get`: first value stored under the key. -/
def kvGet : Store → String → Option KVValue
  | [], _ => none
  | p :: t, k => if p.1 = k then some p.2 else kvGet t k

/-- `KV.put`: replace any value under the key. -/
def kvPut (store : Store) (k : String) (v : KVValue) : Store :=
  (k, v) :: store.filter fun p => p.1 != k

/-- `KV.delete`. -/
def kvDelete (store : Store) (k : String) : Store :=
  store.filter fun p => p.1 != k

/-- The fixed key of the statistics record (`statsKey` in updateCacheStats). -/
def statsKey : String := "cache:stats"

/-- Which cache-store interactions succeed during one call; a `false` flag
means the corresponding awaited operation throws (`kvAvailable = false`
means the `EMBEDDING_CACHE_KV` binding is absent). -/
structure CacheFaults where
  kvAvailable : Bool
  readOk : Bool
  writeBackOk : Bool
  statsGetOk : Bool
  statsPutOk : Bool
deriving Repr, DecidableEq

/-- All store interactions healthy. -/
def cacheHealthy : CacheFaults := ⟨true, true, true, true, true⟩

/-- `updateCacheStats(env, isHit)`: read-modify-write of the stats record.
Every store fault is caught and swallowed inside this function, leaving the
store unchanged.  `isoNow` models `new Date().toISOString()` for a freshly
created record. -/
def updateCacheStats (f : CacheFaults) (isoNow : String) (store : Store)
    (isHit : Bool) : Store :=
  if f.kvAvailable then
    if f.statsGetOk then
      let stats :=
        match kvGet store statsKey with
        | some (.stats s) => s
        | _ => ⟨0, 0, 0, 0, isoNow⟩
      let total := stats.totalQueries + 1
      let hits := if isHit then stats.cacheHits + 1 else stats.cacheHits
      let misses := if isHit then stats.cacheMisses else stats.cacheMisses + 1
      let newStats : CacheStats :=
        ⟨total, hits, misses, (hits : ℚ) / (total : ℚ), stats.lastReset⟩
      if f.statsPutOk then kvPut store statsKey (.stats newStats) else store
    else store
  else store

/-- `generateEmbedding(env, text)` (src/embeddings.ts): throws on input that
is empty after trimming, otherwise defers to the Workers AI model, itself
modelled as a function `provider` that may fail. -/
def generateEmbedding (provider : String → Option (List ℚ)) (text : String) :
    Option (List ℚ) :=
  if (jsTrim text.data).isEmpty then none
  else provider ⟨jsTrim text.data⟩

/-- `getEmbeddingWithCache(env, question)`: without the KV binding, generate
directly; otherwise try the cache (a failing read is caught and treated as
a miss), update the stats, and on a miss generate and write back
fire-and-forget (a failing write-back is caught by the attached handler).
Returns the embedding, the `cached` flag and the store after the call, or
`none` when the embedding provider itself fails. -/
def getEmbeddingWithCache (f : CacheFaults) (provider : String → Option (List ℚ))
    (isoNow : String) (ts : Nat) (store : Store) (question : String) :
    Option (List ℚ × Bool × Store) :=
  if f.kvAvailable then
    let cacheKey := cacheKeyFor question
    let hit : Option CacheEntry :=
      if f.readOk then
        match kvGet store cacheKey with
        | some (.entry e) => some e
        | _ => none
      else none
    match hit with
    | some e =>
      some (e.embedding, true, updateCacheStats f isoNow store true)
    | none =>
      match generateEmbedding provider question with
      | none => none
      | some emb =>
        let store1 :=
          if f.writeBackOk then kvPut store cacheKey (.entry ⟨emb, question, ts⟩)
          else store
        some (emb, false, updateCacheStats f isoNow store1 false)
  else
    match generateEmbedding provider question with
    | none => none
    | some emb => some (emb, false, store)

/-- Does a key belong to the `emb:*` family (the KV `list({prefix: 'emb:'})`
filter)? -/
def hasEmbKeyPfx (k : String) : Bool := "emb:".data.isPrefixOf k.data

/-- `clearCache(env)`: list every key with the `emb:` prefix, delete them
counting each, delete the stats record, and return the count. -/
def clearCache (kvAvailable : Bool) (store : Store) : Nat × Store :=
  if kvAvailable then
    let keys := (store.filter fun p => hasEmbKeyPfx p.1).map Prod.fst
    let store1 := keys.foldl kvDelete store
    (keys.length, kvDelete store1 statsKey)
  else (0, store)

/-! ## The `/api/ask` handler front (src/index.ts lines 109-267) -/

/-- The `POST /api/ask` handler: validate the question, normalize it, fetch
the embedding through the cache, search, and decide.  A `none` question
models a missing JSON field; the vector search is a function from the query
embedding to the ranked results.  An error thrown by the embedding path is
caught by the surrounding handler and answered with the generic 500
response. -/
def askHandler (f : CacheFaults) (provider : String → Option (List ℚ))
    (isoNow : String) (ts : Nat) (store : Store)
    (search : List ℚ → List SearchResult)
    (primaryThreshold fuzzyThreshold : ℚ) (question : Option String) :
    AskResponse :=
  match question with
  | none => { success := false, status := 400, message := some emptyQuestionMessage }
  | some q =>
    if (jsTrim q.data).isEmpty then
      { success := false, status := 400, message := some emptyQuestionMessage }
    else
      let normalized := normalizeTurkish q
      match getEmbeddingWithCache f provider isoNow ts store normalized with
      | none => { success := false, status := 500, message := some genericErrorMessage }
      | some (emb, _, _) =>
        askDecision (search emb) primaryThreshold fuzzyThreshold

/-! ## Specification-side predicates -/

/-- The stats record is internally consistent: the hit rate is the quotient
of hits by total queries, and hits and misses sum to the total. -/
def statsGood (s : CacheStats) : Prop :=
  s.hitRate = (s.cacheHits : ℚ) / (s.totalQueries : ℚ) ∧
  s.cacheHits + s.cacheMisses = s.totalQueries

/-- Whatever stats record the store holds is internally consistent. -/
def storeStatsGood (store : Store) : Prop :=
  ∀ s, kvGet store statsKey = some (.stats s) → statsGood s

/-! ## Occurrence analysis for whole-word replacement (proof layer) -/

/-- Is there a `\b k \b` occurrence anywhere in `s`, with `prev` the
character just before `s`? -/
def occB (k : List Char) : Option Char → List Char → Bool
  | _, [] => false
  | prev, c :: cs => matchesAt k prev (c :: cs) || occB k (some c) cs

/-- Is there an occurrence starting inside `a`, allowed to look ahead into
the continuation `b`? -/
def occStart (k : List Char) : Option Char → List Char → List Char → Bool
  | _, [], _ => false
  | prev, c :: cs, b => matchesAt k prev (c :: cs ++ b) || occStart k (some c) cs b

/-- Wordness of the character of `l` at index `n` (`true` past the end). -/
def wordAtD (l : List Char) (n : Nat) : Bool :=
  match (l.drop n).head? with
  | some c => isWordChar c
  | none => true

/-- The context character after scanning `a`, starting from context `prev`. -/
def ctxAfter (prev : Option Char) (a : List Char) : Option Char :=
  match a.getLast? with
  | some c => some c
  | none => prev

/-- Side conditions on a preserved key `kp` against an inserted replacement
value `v`, all decidable: `v` contains no occurrence of `kp` in a non-word
context; no suffix of `v` that is a proper prefix of `kp` continues with a
non-word character of `kp`; no split of `kp` after a non-word character
continues with a prefix of `v`; and no such split embeds all of `v` and then
resumes `kp` at a non-word character. -/
def pairOK (kp v : List Char) : Bool :=
  (occStart kp none v [] == false) &&
  (v.tails.all fun t =>
    !(t.isPrefixOf kp && decide (t.length < kp.length)) || wordAtD kp t.length) &&
  ((List.range kp.length).all fun i =>
    wordAtD kp i || !((kp.drop (i + 1)).isPrefixOf v)) &&
  ((List.range kp.length).all fun i =>
    wordAtD kp i || !(v.isPrefixOf (kp.drop (i + 1))) || wordAtD kp (i + 1 + v.length))

/-- Shape of a non-identity typo-map entry: nonempty key and value, the key
begins and ends with a word character and contains no whitespace. -/
def entryShapeOK (k v : List Char) : Bool :=
  !k.isEmpty && !v.isEmpty && isWordOpt k.head? && isWordOpt k.getLast? &&
  k.all fun c => !isJsSpace c

/-- Characters that pass through the early normalizer stages unchanged:
kept by the strip class, fixed by `lowerChar`, and whitespace only as a
plain space. -/
def goodChar (c : Char) : Bool :=
  isKeptChar c && (lowerChar c == [c]) && (!isJsSpace c || c == ' ')

/-- No two adjacent whitespace characters. -/
def noDoubleSpace : List Char → Bool
  | c1 :: c2 :: rest => !(isJsSpace c1 && isJsSpace c2) && noDoubleSpace (c2 :: rest)
  | _ => true

/-- Canonically spaced: no double whitespace and no whitespace at either
edge. -/
def canonicalSpacing (l : List Char) : Bool :=
  noDoubleSpace l &&
  (match l.head? with | some c => !isJsSpace c | none => true) &&
  (match l.getLast? with | some c => !isJsSpace c | none => true)

/-- All well-formedness conditions of the typo map needed for idempotence:
every entry is an identity entry or has a well-shaped key, every value is
made of stable characters with canonical spacing, and the preservation side
conditions hold for every pair of non-identity entries. -/
def typoMapOK (L : List (String × String)) : Bool :=
  (L.all fun e => e.1 == e.2 || entryShapeOK e.1.data e.2.data) &&
  (L.all fun e => e.2.data.all goodChar && canonicalSpacing e.2.data) &&
  ((L.filter fun e => e.1 != e.2).all fun e =>
    L.all fun e' => pairOK e.1.data e'.2.data)

end Passgage

namespace Passgage

/-! ## Theorems: the `/api/ask` decision (C1) -/

/-- C1: For every non-empty result list and thresholds with
`fuzzyThreshold ≤ primaryThreshold`, the decision is determined by the first
result's score — `score ≥ primary` gives the Direct response
(`success = true`), `fuzzy ≤ score < primary` gives the Fuzzy response
(`fuzzy = true` with the best candidate's question as `suggestedQuestion`),
and `score < fuzzy` gives the NoMatch response; an empty result list gives
the NoMatch response with an empty suggestion list. -/
theorem ask_threshold_partition (results : List SearchResult)
    (primary fuzzyT : ℚ) (hpf : fuzzyT ≤ primary) :
    (results = [] → askDecision results primary fuzzyT =
      { success := false, message := some noMatchMessage,
        suggestions := some [] }) ∧
    ∀ best rest, results = best :: rest →
      (primary ≤ best.score →
        (askDecision results primary fuzzyT).success = true ∧
        (askDecision results primary fuzzyT).fuzzy = false) ∧
      (fuzzyT ≤ best.score → best.score < primary →
        (askDecision results primary fuzzyT).success = false ∧
        (askDecision results primary fuzzyT).fuzzy = true ∧
        (askDecision results primary fuzzyT).suggestedQuestion =
          some best.faq.question) ∧
      (best.score < fuzzyT →
        (askDecision results primary fuzzyT).success = false ∧
        (askDecision results primary fuzzyT).fuzzy = false ∧
        (askDecision results primary fuzzyT).suggestedQuestion = none) := by
  constructor
  · rintro rfl
    rfl
  · rintro best rest rfl
    refine ⟨fun hd => ?_, fun hf hnd => ?_, fun hnf => ?_⟩
    · simp [askDecision, if_pos hd]
    · rw [askDecision, if_neg (by linarith), if_pos hf]
      exact ⟨rfl, rfl, rfl⟩
    · rw [askDecision, if_neg (by linarith), if_neg (by linarith)]
      exact ⟨rfl, rfl, rfl⟩

/-- Witness for C1 at a concrete input (score 82/100, thresholds 0.7/0.6). -/
theorem ask_threshold_partition_witness :
    ((6 : ℚ)/10 ≤ 7/10) ∧
    (askDecision [⟨⟨"faq-1", "q1", "a1", "c1"⟩, 82/100⟩] (7/10) (6/10)).success
      = true := by
  have h := ask_threshold_partition
    [⟨⟨"faq-1", "q1", "a1", "c1"⟩, (82 : ℚ)/100⟩] (7/10) (6/10) (by norm_num)
  exact ⟨by norm_num, ((h.2 _ _ rfl).1 (by norm_num)).1⟩

/-! ## Theorems: the rate limiter (C3, C5) -/

theorem runRequests_in_window (N : Nat) :
    ∀ (ts : List Nat) (c T : Nat), (∀ t ∈ ts, t < T) → c + ts.length ≤ N →
      runRequests N (some ⟨c, T⟩) ts =
        (some ⟨c + ts.length, T⟩, ts.map fun _ => RateLimitOutcome.proceed) := by
  intro ts
  induction ts with
  | nil => intro c T _ _; simp [runRequests]
  | cons t ts ih =>
    intro c T hlt hle
    have h1 : t < T := hlt t (by simp)
    have h2 : ¬ N ≤ c := by simp at hle; omega
    have step : admitStep N t (some ⟨c, T⟩) = (.proceed, some ⟨c + 1, T⟩) := by
      simp [admitStep, rateLimiter, if_pos h1, if_neg h2]
    rw [runRequests, step]
    have := ih (c + 1) T (fun x hx => hlt x (by simp [hx])) (by simp at hle ⊢; omega)
    rw [this]
    simp
    omega

/-- C3: with limit `N ≥ 1`, starting from an empty window record, `N`
requests inside one 60-second window are all admitted and leave the stored
count at `N`; an `(N+1)`-th request still inside the window is denied with a
positive `retryAfter`; and any request at or after the reset time is
admitted with the stored count reset to 1. -/
theorem rate_limit_window (N t0 : Nat) (ts : List Nat) (hN : 1 ≤ N)
    (hlen : ts.length + 1 = N) (hts : ∀ t ∈ ts, t < t0 + 60000)
    (tNext : Nat) (hNext : tNext < t0 + 60000) :
    (∀ o ∈ (runRequests N none (t0 :: ts)).2, o = RateLimitOutcome.proceed) ∧
    (runRequests N none (t0 :: ts)).1 = some ⟨N, t0 + 60000⟩ ∧
    (admitStep N tNext (some ⟨N, t0 + 60000⟩)).1 =
      .reject (ceilSeconds (t0 + 60000 - tNext)) ∧
    0 < ceilSeconds (t0 + 60000 - tNext) ∧
    ∀ c rt now, rt ≤ now →
      admitStep N now (some ⟨c, rt⟩) = (.proceed, some ⟨1, now + 60000⟩) := by
  have step0 : admitStep N t0 none = (.proceed, some ⟨1, t0 + 60000⟩) := by
    simp [admitStep, rateLimiter]
  have hrun := runRequests_in_window N ts 1 (t0 + 60000) hts (by omega)
  have hfull : runRequests N none (t0 :: ts) =
      (some ⟨1 + ts.length, t0 + 60000⟩,
        RateLimitOutcome.proceed :: ts.map fun _ => RateLimitOutcome.proceed) := by
    rw [runRequests, step0, hrun]
  refine ⟨?_, ?_, ?_, ?_, ?_⟩
  · intro o ho
    rw [hfull] at ho
    simp at ho
    rcases ho with h | h
    · exact h
    · exact h.2
  · have hNlen : 1 + ts.length = N := by omega
    rw [hfull, hNlen]
  · simp [admitStep, rateLimiter, if_pos hNext]
  · have : 1 ≤ t0 + 60000 - tNext := by omega
    unfold ceilSeconds
    omega
  · intro c rt now hle
    simp [admitStep, rateLimiter, if_neg (by omega : ¬ now < rt)]

/-- Witness for C3: limit 2, requests at 0 ms and 1 ms admitted, the third
at 2 ms denied with a 60-second retry, and a request at 60000 ms resets. -/
theorem rate_limit_window_witness :
    (1 ≤ 2 ∧ [1].length + 1 = 2 ∧ (∀ t ∈ [1], t < 0 + 60000) ∧ 2 < 0 + 60000) ∧
    (admitStep 2 2 (some ⟨2, 0 + 60000⟩)).1 =
      .reject (ceilSeconds (0 + 60000 - 2)) := by
  have h := rate_limit_window 2 0 [1] (by decide) (by decide)
    (by intro t ht; simp at ht; omega) 2 (by decide)
  exact ⟨⟨by decide, by decide, by intro t ht; simp at ht; omega, by decide⟩,
    h.2.2.1⟩

/-- C5 counterexample: with the `RATE_LIMIT_KV` binding present and the
awaited `KV.get` throwing, the middleware propagates the store error — the
request is not admitted (there is no `try`/`catch` in `rateLimiter`). -/
theorem rate_limiter_store_failure_counterexample :
    (rateLimiter true 60 0 none false true).1 = .storeError ∧
    (rateLimiter true 60 0 none false true).1 ≠ .proceed := by decide

/-- C5 amended: the limiter fails open only when the KV binding is absent;
with the binding present, a throwing `KV.get` (and likewise a throwing
`KV.put` on the admit paths) surfaces as a propagated error rather than an
admission or a denial. -/
theorem rate_limiter_fail_open_amended (maxRequests now : Nat)
    (store : Option RateLimitRecord) (getOk putOk : Bool) :
    rateLimiter false maxRequests now store getOk putOk = (.proceed, store) ∧
    (getOk = false →
      rateLimiter true maxRequests now store getOk putOk = (.storeError, store)) := by
  constructor
  · simp [rateLimiter]
  · rintro rfl
    simp [rateLimiter]

/-- Witness for the amended C5 statement at concrete inputs. -/
theorem rate_limiter_fail_open_amended_witness :
    rateLimiter false 60 5 none true true = (.proceed, none) ∧
    rateLimiter true 60 5 none false true = (.storeError, none) := by
  have h := rate_limiter_fail_open_amended 60 5 none false true
  have h2 := rate_limiter_fail_open_amended 60 5 none true true
  exact ⟨h2.1, h.2 rfl⟩

end Passgage

namespace Passgage

/-! ## Store lemmas -/

theorem kvGet_filter_key (q : String → Bool) (store : Store) (k : String) :
    kvGet (store.filter fun p => q p.1) k = if q k then kvGet store k else none := by
  induction store with
  | nil => simp [kvGet]
  | cons a t ih =>
    by_cases hk : a.1 = k
    · subst hk
      by_cases hq : q a.1
      · rw [List.filter_cons_of_pos (by simpa using hq)]
        simp [kvGet, hq]
      · rw [List.filter_cons_of_neg (by simpa using hq), ih]
        simp [kvGet, hq]
    · by_cases hq : q a.1
      · rw [List.filter_cons_of_pos (by simpa using hq), kvGet, if_neg hk, ih, kvGet,
          if_neg hk]
      · rw [List.filter_cons_of_neg (by simpa using hq), ih, kvGet, if_neg hk]

theorem kvGet_put_same (store : Store) (k : String) (v : KVValue) :
    kvGet (kvPut store k v) k = some v := by
  simp [kvGet, kvPut]

theorem kvGet_put_ne (store : Store) (k k' : String) (v : KVValue)
    (h : k' ≠ k) : kvGet (kvPut store k v) k' = kvGet store k' := by
  rw [kvPut, kvGet, if_neg (fun e => h e.symm)]
  have := kvGet_filter_key (fun x => x != k) store k'
  rw [this, if_pos (by simp [h])]

theorem kvGet_delete (store : Store) (k k' : String) :
    kvGet (kvDelete store k) k' = if k' = k then none else kvGet store k' := by
  rw [kvDelete, kvGet_filter_key (fun x => x != k) store k']
  by_cases h : k' = k
  · simp [h]
  · simp [h]

theorem updateCacheStats_cases (f : CacheFaults) (isoNow : String)
    (store : Store) (isHit : Bool) :
    updateCacheStats f isoNow store isHit = store ∨
    ∃ ns, updateCacheStats f isoNow store isHit =
      kvPut store statsKey (.stats ns) := by
  unfold updateCacheStats
  by_cases h1 : f.kvAvailable
  · by_cases h2 : f.statsGetOk
    · by_cases h3 : f.statsPutOk
      · simp only [h1, h2, h3, if_true]
        exact Or.inr ⟨_, rfl⟩
      · simp only [h1, h2, h3, if_true, Bool.false_eq_true, if_false]
        exact Or.inl trivial
    · simp [h1, h2]
  · simp [h1]

theorem updateCacheStats_get_other (f : CacheFaults) (isoNow : String)
    (store : Store) (isHit : Bool) (k : String) (h : k ≠ statsKey) :
    kvGet (updateCacheStats f isoNow store isHit) k = kvGet store k := by
  rcases updateCacheStats_cases f isoNow store isHit with hc | ⟨ns, hc⟩
  · rw [hc]
  · rw [hc, kvGet_put_ne _ _ _ _ h]

theorem hasEmbKeyPfx_cacheKeyFor (q : String) :
    hasEmbKeyPfx (cacheKeyFor q) = true := by
  unfold hasEmbKeyPfx cacheKeyFor
  rw [List.isPrefixOf_iff_prefix, String.data_append, String.data_append,
    String.data_append, List.append_assoc, List.append_assoc]
  exact List.prefix_append _ _

theorem cacheKeyFor_ne_statsKey (q : String) : cacheKeyFor q ≠ statsKey := by
  intro h
  have h1 := hasEmbKeyPfx_cacheKeyFor q
  rw [h] at h1
  exact absurd h1 (by decide)

/-! ## Theorems: the cache key (C6) -/

/-- C6: the cache key is the fixed `emb:` tag, the base-36 rendering of the
32-bit string hash, a colon, and the first 20 characters of the normalized
text — a deterministic function of the normalized text, so any two raw
texts with the same normalized form get the same cache key. -/
theorem cache_key_deterministic (t1 t2 : String)
    (h : normalizeTurkish t1 = normalizeTurkish t2) :
    cacheKeyFor (normalizeTurkish t1) = cacheKeyFor (normalizeTurkish t2) ∧
    ∀ q : String, cacheKeyFor q = "emb:" ++ hashString q ++ ":" ++ q.take 20 :=
  ⟨by rw [h], fun _ => rfl⟩

/-- Witness for C6: `"Sifre!"` and `"sifre"` normalize identically (both to
`"şifre"`), hence share one cache key. -/
theorem cache_key_deterministic_witness :
    normalizeTurkish "Sifre!" = normalizeTurkish "sifre" ∧
    cacheKeyFor (normalizeTurkish "Sifre!") = cacheKeyFor (normalizeTurkish "sifre") := by
  have h : normalizeTurkish "Sifre!" = normalizeTurkish "sifre" := by decide
  exact ⟨h, (cache_key_deterministic "Sifre!" "sifre" h).1⟩

/-! ## Theorems: cache fault handling (C4) -/

/-- C4 counterexample: the store is available, the cached entry for the
question is present, and only the stats write fails; the call then returns
the stored vector `[9]` with `cached = true` — not the provider's fresh
vector `[5]` with `cached = false` as the claim would require under "any
cache operation fails". -/
theorem getEmbedding_statsFault_counterexample :
    getEmbeddingWithCache ⟨true, true, true, true, false⟩ (fun _ => some [5])
        "t" 0 [(cacheKeyFor "soru", .entry ⟨[9], "soru", 0⟩)] "soru" =
      some ([9], true, [(cacheKeyFor "soru", .entry ⟨[9], "soru", 0⟩)]) ∧
    ¬ ([(9 : ℚ)], true) = ([(5 : ℚ)], false) := by
  constructor
  · decide
  · simp

/-- C4 amended: when the store is unavailable or the cache read fails, the
call returns the provider's fresh vector with `cached = false`; and no
cache fault ever surfaces as an error — whenever the provider succeeds the
call succeeds (on a healthy cache hit it returns the stored vector with
`cached = true` even if the stats update fails). -/
theorem getEmbedding_cache_fault_amended (f : CacheFaults)
    (provider : String → Option (List ℚ)) (isoNow : String) (ts : Nat)
    (store : Store) (q : String) (emb : List ℚ)
    (hgen : generateEmbedding provider q = some emb) :
    (f.kvAvailable = false ∨ f.readOk = false →
      ∃ st, getEmbeddingWithCache f provider isoNow ts store q =
        some (emb, false, st)) ∧
    ∃ r, getEmbeddingWithCache f provider isoNow ts store q = some r := by
  constructor
  · intro hcase
    unfold getEmbeddingWithCache
    rcases hcase with hkv | hro
    · rw [hkv]
      simp [hgen]
    · by_cases hkv : f.kvAvailable
      · rw [if_pos hkv, hro]
        simp [hgen]
      · rw [if_neg hkv]
        simp [hgen]
  · unfold getEmbeddingWithCache
    by_cases hkv : f.kvAvailable
    · rw [if_pos hkv]
      dsimp only
      by_cases hro : f.readOk
      · rw [if_pos hro]
        rcases hkv2 : kvGet store (cacheKeyFor q) with _ | v
        · rw [hgen]
          exact ⟨_, rfl⟩
        · cases v with
          | entry e => exact ⟨_, rfl⟩
          | stats s => rw [hgen]; exact ⟨_, rfl⟩
      · rw [if_neg hro, hgen]
        exact ⟨_, rfl⟩
    · rw [if_neg hkv, hgen]
      exact ⟨_, rfl⟩

/-- Witness for the amended C4 statement: an unavailable store still yields
the fresh embedding `[3]` with `cached = false`. -/
theorem getEmbedding_cache_fault_amended_witness :
    generateEmbedding (fun _ => some [(3 : ℚ)]) "soru" = some [3] ∧
    ∃ st, getEmbeddingWithCache ⟨false, true, true, true, true⟩
      (fun _ => some [(3 : ℚ)]) "t" 0 [] "soru" = some ([3], false, st) := by
  have hgen : generateEmbedding (fun _ => some [(3 : ℚ)]) "soru" = some [3] := by
    decide
  exact ⟨hgen,
    (getEmbedding_cache_fault_amended ⟨false, true, true, true, true⟩
      (fun _ => some [(3 : ℚ)]) "t" 0 [] "soru" [3] hgen).1 (Or.inl rfl)⟩

/-! ## Theorems: punctuation-only questions (C10) -/

/-- C10: the question `"!!!"` is non-empty after trimming, so it passes the
handler's validation, but it normalizes to the empty string; the embedding
call then throws on the empty input and the caller receives the generic
500 internal-error response, not a validation error. -/
theorem empty_normalization_reaches_provider :
    (jsTrim "!!!".data).isEmpty = false ∧
    normalizeTurkish "!!!" = "" ∧
    askHandler ⟨false, true, true, true, true⟩ (fun _ => some [1]) "t" 0 []
        (fun _ => []) (7/10) (6/10) (some "!!!") =
      { success := false, status := 500, message := some genericErrorMessage } := by
  decide

end Passgage

namespace Passgage

/-! ## Theorems: cache statistics accounting (C7) -/

theorem updateCacheStats_healthy_eq (isoNow : String) (store : Store)
    (isHit : Bool) (s0 : CacheStats)
    (h : (match kvGet store statsKey with
          | some (.stats s) => s
          | _ => (⟨0, 0, 0, 0, isoNow⟩ : CacheStats)) = s0) :
    updateCacheStats cacheHealthy isoNow store isHit =
      kvPut store statsKey (.stats
        ⟨s0.totalQueries + 1,
         (if isHit then s0.cacheHits + 1 else s0.cacheHits),
         (if isHit then s0.cacheMisses else s0.cacheMisses + 1),
         ((if isHit then s0.cacheHits + 1 else s0.cacheHits : Nat) : ℚ) /
           ((s0.totalQueries + 1 : Nat) : ℚ),
         s0.lastReset⟩) := by
  unfold updateCacheStats
  rw [h]
  rfl

/-- C7: starting with no stats record, a miss followed by a hit for the same
normalized text (write-back in between) leaves the stats at
`totalQueries = 2, cacheHits = 1, cacheMisses = 1, hitRate = 1/2`; and every
stats update preserves `hitRate = cacheHits / totalQueries` and
`cacheHits + cacheMisses = totalQueries`. -/
theorem cache_stats_accounting (provider : String → Option (List ℚ))
    (q isoNow : String) (ts : Nat) (emb : List ℚ)
    (hgen : generateEmbedding provider q = some emb) :
    (∃ st1, getEmbeddingWithCache cacheHealthy provider isoNow ts [] q =
        some (emb, false, st1) ∧
      ∃ st2, getEmbeddingWithCache cacheHealthy provider isoNow ts st1 q =
          some (emb, true, st2) ∧
        kvGet st2 statsKey = some (.stats ⟨2, 1, 1, 1/2, isoNow⟩)) ∧
    ∀ (f : CacheFaults) (isoNow2 : String) (store : Store) (isHit : Bool),
      storeStatsGood store → storeStatsGood (updateCacheStats f isoNow2 store isHit) := by
  constructor
  · have hck : cacheKeyFor q ≠ statsKey := cacheKeyFor_ne_statsKey q
    have hck' : statsKey ≠ cacheKeyFor q := fun e => hck e.symm
    obtain ⟨s0, hs0⟩ : ∃ s0 : Store,
        kvPut [] (cacheKeyFor q) (.entry ⟨emb, q, ts⟩) = s0 := ⟨_, rfl⟩
    have hs0stats : kvGet s0 statsKey = none := by
      rw [← hs0, kvGet_put_ne _ _ _ _ hck']
      rfl
    have hs0ck : kvGet s0 (cacheKeyFor q) = some (.entry ⟨emb, q, ts⟩) := by
      rw [← hs0, kvGet_put_same]
    obtain ⟨st1, hst1⟩ : ∃ st1 : Store,
        updateCacheStats cacheHealthy isoNow s0 false = st1 := ⟨_, rfl⟩
    have hst1' : st1 = kvPut s0 statsKey
        (.stats ⟨1, 0, 1, ((0 : Nat) : ℚ) / ((1 : Nat) : ℚ), isoNow⟩) := by
      rw [← hst1]
      exact updateCacheStats_healthy_eq isoNow s0 false ⟨0, 0, 0, 0, isoNow⟩
        (by rw [hs0stats])
    have hst1stats : kvGet st1 statsKey =
        some (.stats ⟨1, 0, 1, ((0 : Nat) : ℚ) / ((1 : Nat) : ℚ), isoNow⟩) := by
      rw [hst1', kvGet_put_same]
    have hst1ck : kvGet st1 (cacheKeyFor q) = some (.entry ⟨emb, q, ts⟩) := by
      rw [hst1', kvGet_put_ne _ _ _ _ hck, hs0ck]
    have h1 : getEmbeddingWithCache cacheHealthy provider isoNow ts [] q =
        some (emb, false, st1) := by
      unfold getEmbeddingWithCache
      simp only [hgen]
      show some (emb, false,
        updateCacheStats cacheHealthy isoNow
          (kvPut [] (cacheKeyFor q) (.entry ⟨emb, q, ts⟩)) false) = _
      rw [hs0, hst1]
    have h2 : getEmbeddingWithCache cacheHealthy provider isoNow ts st1 q =
        some (emb, true, updateCacheStats cacheHealthy isoNow st1 true) := by
      unfold getEmbeddingWithCache
      simp only [hst1ck]
      rfl
    refine ⟨st1, h1, _, h2, ?_⟩
    rw [updateCacheStats_healthy_eq isoNow st1 true
      ⟨1, 0, 1, ((0 : Nat) : ℚ) / ((1 : Nat) : ℚ), isoNow⟩ (by rw [hst1stats])]
    rw [kvGet_put_same]
    norm_num
  · intro f isoNow2 store isHit hgood
    unfold updateCacheStats
    by_cases h1 : f.kvAvailable
    swap
    · rw [if_neg h1]
      exact hgood
    rw [if_pos h1]
    by_cases h2 : f.statsGetOk
    swap
    · rw [if_neg h2]
      exact hgood
    rw [if_pos h2]
    by_cases h3 : f.statsPutOk
    swap
    · rw [if_neg h3]
      exact hgood
    rw [if_pos h3]
    intro s hs
    rcases hget : kvGet store statsKey with _ | v
    · rw [hget] at hs
      simp only [kvGet_put_same, Option.some.injEq, KVValue.stats.injEq] at hs
      rw [← hs]
      refine ⟨rfl, by cases isHit <;> simp⟩
    · rcases v with e | sOld
      · rw [hget] at hs
        simp only [kvGet_put_same, Option.some.injEq, KVValue.stats.injEq] at hs
        rw [← hs]
        refine ⟨rfl, by cases isHit <;> simp⟩
      · rw [hget] at hs
        simp only [kvGet_put_same, Option.some.injEq, KVValue.stats.injEq] at hs
        rw [← hs]
        have hOld := (hgood sOld hget).2
        refine ⟨rfl, ?_⟩
        cases isHit <;> simp <;> omega

end Passgage

namespace Passgage

/-- Witness for C7: provider returning `[1]`, question `"soru"`. -/
theorem cache_stats_accounting_witness :
    generateEmbedding (fun _ => some [(1 : ℚ)]) "soru" = some [1] ∧
    ∃ st1, getEmbeddingWithCache cacheHealthy (fun _ => some [(1 : ℚ)]) "t" 0 [] "soru" =
        some ([1], false, st1) ∧
      ∃ st2, getEmbeddingWithCache cacheHealthy (fun _ => some [(1 : ℚ)]) "t" 0 st1 "soru" =
          some ([1], true, st2) ∧
        kvGet st2 statsKey = some (.stats ⟨2, 1, 1, 1/2, "t"⟩) := by
  have hgen : generateEmbedding (fun _ => some [(1 : ℚ)]) "soru" = some [1] := rfl
  exact ⟨hgen, (cache_stats_accounting _ "soru" "t" 0 [1] hgen).1⟩

/-! ## Theorems: `clearCache` (C8) and key families (C9) -/

theorem kvGet_eq_none_of_no_key (store : Store) (k : String)
    (h : ∀ p ∈ store, p.1 ≠ k) : kvGet store k = none := by
  induction store with
  | nil => rfl
  | cons a t ih =>
    rw [kvGet, if_neg (h a (by simp))]
    exact ih fun p hp => h p (by simp [hp])

theorem foldl_kvDelete_filter (keys : List String) : ∀ store : Store,
    keys.foldl kvDelete store = store.filter fun p => !(keys.contains p.1) := by
  induction keys with
  | nil =>
    intro store
    simp [List.filter_eq_self]
  | cons k0 ks ih =>
    intro store
    rw [List.foldl_cons, ih, kvDelete, List.filter_filter]
    apply List.filter_congr
    intro p _
    rw [List.contains_cons, Bool.not_or, Bool.and_comm]
    rfl

/-- The keys deleted by `clearCache` over a store. -/
def embKeysOf (store : Store) : List String :=
  (store.filter fun p => hasEmbKeyPfx p.1).map Prod.fst

theorem mem_embKeysOf {store : Store} {x : String} :
    x ∈ embKeysOf store ↔ hasEmbKeyPfx x = true ∧ ∃ p ∈ store, p.1 = x := by
  unfold embKeysOf
  rw [List.mem_map]
  constructor
  · rintro ⟨p, hp, rfl⟩
    rw [List.mem_filter] at hp
    exact ⟨hp.2, p, hp.1, rfl⟩
  · rintro ⟨hx, p, hp, rfl⟩
    exact ⟨p, List.mem_filter.mpr ⟨hp, hx⟩, rfl⟩

theorem clearCache_eq (store : Store) :
    clearCache true store =
      ((store.filter fun p => hasEmbKeyPfx p.1).length,
       (store.filter fun p => !((embKeysOf store).contains p.1)).filter
         fun p => p.1 != statsKey) := by
  unfold clearCache
  rw [if_pos rfl]
  dsimp only
  rw [foldl_kvDelete_filter]
  refine congrArg₂ Prod.mk ?_ rfl
  rw [List.length_map]

theorem clearCache_get (store : Store) (k : String) :
    kvGet (clearCache true store).2 k =
      if hasEmbKeyPfx k ∨ k = statsKey then none else kvGet store k := by
  rw [clearCache_eq]
  dsimp only
  rw [show (List.filter (fun p => p.1 != statsKey)
      (store.filter fun p => !((embKeysOf store).contains p.1))) =
      (store.filter fun p => !((embKeysOf store).contains p.1)).filter
        (fun p => p.1 != statsKey) from rfl]
  rw [List.filter_filter]
  rw [kvGet_filter_key (fun x => x != statsKey && !((embKeysOf store).contains x))]
  by_cases hks : k = statsKey
  · rw [if_neg (by simp [hks]), if_pos (Or.inr hks)]
  · by_cases hc : (embKeysOf store).contains k
    · rw [if_neg (by simp only [hc, Bool.not_true, Bool.and_false]; exact
        Bool.false_ne_true)]
      have hemb : hasEmbKeyPfx k = true := (mem_embKeysOf.mp (List.elem_iff.mp hc)).1
      rw [if_pos (Or.inl hemb)]
    · have hcf : (embKeysOf store).contains k = false := by
        cases h : (embKeysOf store).contains k
        · rfl
        · exact absurd h hc
      rw [if_pos (by simp only [hcf, Bool.not_false, Bool.and_true]; exact
        bne_iff_ne.mpr hks)]
      by_cases hemb : hasEmbKeyPfx k
      · rw [if_pos (Or.inl hemb)]
        apply kvGet_eq_none_of_no_key
        intro p hp hpk
        apply hc
        show List.elem k (embKeysOf store) = true
        rw [List.elem_iff]
        exact mem_embKeysOf.mpr ⟨hemb, p, hp, hpk⟩
      · rw [if_neg (by simp [hemb, hks])]

theorem clearCache_idem (store : Store) :
    clearCache true (clearCache true store).2 = (0, (clearCache true store).2) := by
  obtain ⟨final, hfin⟩ : ∃ fin0, (clearCache true store).2 = fin0 := ⟨_, rfl⟩
  have hmem : ∀ p, p ∈ final →
      hasEmbKeyPfx p.1 = false ∧ (p.1 != statsKey) = true := by
    intro p hp
    rw [← hfin, clearCache_eq] at hp
    dsimp only at hp
    rw [List.mem_filter] at hp
    rcases hp with ⟨hp1, hp2⟩
    rw [List.mem_filter] at hp1
    rcases hp1 with ⟨hp0, hp3⟩
    refine ⟨?_, hp2⟩
    by_cases he : hasEmbKeyPfx p.1
    · exfalso
      have hm : p.1 ∈ embKeysOf store := mem_embKeysOf.mpr ⟨he, p, hp0, rfl⟩
      have : (embKeysOf store).contains p.1 = true := List.elem_iff.mpr hm
      rw [this] at hp3
      cases hp3
    · simpa using he
  have hfilter : (final.filter fun p => hasEmbKeyPfx p.1) = [] := by
    rw [List.filter_eq_nil_iff]
    intro p hp
    simp [(hmem p hp).1]
  rw [hfin]
  unfold clearCache
  rw [if_pos rfl]
  dsimp only
  rw [hfilter]
  dsimp only [List.map_nil, List.foldl_nil, List.length_nil]
  refine congrArg₂ Prod.mk rfl ?_
  rw [kvDelete, List.filter_eq_self]
  intro p hp
  exact (hmem p hp).2

/-- C8: `clearCache` removes exactly the `emb:`-prefixed entries and the
stats record, returns the number of `emb:`-prefixed entries removed, and is
idempotent: a second invocation removes nothing, returns 0 and leaves the
store unchanged. -/
theorem clear_cache_spec (store : Store) :
    (clearCache true store).1 = (store.filter fun p => hasEmbKeyPfx p.1).length ∧
    (∀ k, kvGet (clearCache true store).2 k =
      if hasEmbKeyPfx k ∨ k = statsKey then none else kvGet store k) ∧
    clearCache true (clearCache true store).2 = (0, (clearCache true store).2) :=
  ⟨by rw [clearCache_eq], fun k => clearCache_get store k, clearCache_idem store⟩

/-- C9 counterexample: the stats record is written under the key
`cache:stats`, which is not in the `emb:*` family. -/
theorem cache_stats_key_outside_emb :
    updateCacheStats cacheHealthy "t" [] false =
      [(statsKey, .stats ⟨1, 0, 1, 0, "t"⟩)] ∧
    hasEmbKeyPfx statsKey = false := by
  constructor
  · simp [updateCacheStats, cacheHealthy, kvGet, kvPut, statsKey]
  · decide

/-- C9 amended: every store key the embedding-cache component writes or
deletes is either in the `emb:*` family (cache entries) or is the fixed
stats key `cache:stats` — equivalently, any key outside both is left
untouched by `updateCacheStats`, `getEmbeddingWithCache` and `clearCache`. -/
theorem cache_store_key_families (f : CacheFaults)
    (provider : String → Option (List ℚ)) (isoNow : String) (ts : Nat)
    (store : Store) (q k : String)
    (hk1 : hasEmbKeyPfx k = false) (hk2 : k ≠ statsKey) :
    (∀ isHit, kvGet (updateCacheStats f isoNow store isHit) k = kvGet store k) ∧
    (∀ r, getEmbeddingWithCache f provider isoNow ts store q = some r →
      kvGet r.2.2 k = kvGet store k) ∧
    kvGet (clearCache true store).2 k = kvGet store k := by
  have hkck : k ≠ cacheKeyFor q := by
    intro h
    rw [h, hasEmbKeyPfx_cacheKeyFor] at hk1
    cases hk1
  refine ⟨fun isHit => updateCacheStats_get_other f isoNow store isHit k hk2,
    ?_, ?_⟩
  · intro r hr
    unfold getEmbeddingWithCache at hr
    by_cases hkv : f.kvAvailable
    · rw [if_pos hkv] at hr
      dsimp only at hr
      rcases hhit : (if f.readOk = true then
          match kvGet store (cacheKeyFor q) with
          | some (.entry e) => some e
          | _ => none
        else none) with _ | e
      · rw [hhit] at hr
        rcases hg : generateEmbedding provider q with _ | emb
        · rw [hg] at hr
          cases hr
        · rw [hg] at hr
          dsimp only at hr
          rcases hr with ⟨⟩
          dsimp only
          rw [updateCacheStats_get_other _ _ _ _ _ hk2]
          by_cases hwb : f.writeBackOk
          · rw [if_pos hwb, kvGet_put_ne _ _ _ _ hkck]
          · rw [if_neg hwb]
      · rw [hhit] at hr
        rcases hr with ⟨⟩
        dsimp only
        exact updateCacheStats_get_other _ _ _ _ _ hk2
    · rw [if_neg hkv] at hr
      rcases hg : generateEmbedding provider q with _ | emb
      · rw [hg] at hr
        cases hr
      · rw [hg] at hr
        rcases hr with ⟨⟩
        rfl
  · rw [clearCache_get, if_neg (by simp [hk1, hk2])]

/-- Witness for the amended C9 statement: the untouched foreign key
`"other"` keeps its value across a stats update. -/
theorem cache_store_key_families_witness :
    hasEmbKeyPfx "other" = false ∧ "other" ≠ statsKey ∧
    kvGet (updateCacheStats cacheHealthy "t" [] false) "other" = kvGet [] "other" := by
  refine ⟨by decide, by decide, ?_⟩
  exact (cache_store_key_families cacheHealthy (fun _ => none) "t" 0 [] "q" "other"
    (by decide) (by decide)).1 false

end Passgage

namespace Passgage

/-! ## Basic occurrence lemmas -/

theorem matchesAt_true_iff {k : List Char} {prev : Option Char} {s : List Char} :
    matchesAt k prev s = true ↔
      k ≠ [] ∧ k <+: s ∧ isWordOpt prev ≠ isWordOpt k.head? ∧
        isWordOpt k.getLast? ≠ isWordOpt ((s.drop k.length).head?) := by
  simp [matchesAt, List.isPrefixOf_iff_prefix, List.isEmpty_iff, and_assoc]

theorem matchesAt_congr_prev {p1 p2 : Option Char}
    (h : isWordOpt p1 = isWordOpt p2) (k : List Char) (s : List Char) :
    matchesAt k p1 s = matchesAt k p2 s := by
  simp [matchesAt, h]

theorem occB_congr_prev {p1 p2 : Option Char}
    (h : isWordOpt p1 = isWordOpt p2) (k : List Char) (s : List Char) :
    occB k p1 s = occB k p2 s := by
  cases s with
  | nil => rfl
  | cons c cs => simp only [occB, matchesAt_congr_prev h]

theorem occStart_congr_prev {p1 p2 : Option Char}
    (h : isWordOpt p1 = isWordOpt p2) (k : List Char) (a b : List Char) :
    occStart k p1 a b = occStart k p2 a b := by
  cases a with
  | nil => rfl
  | cons c cs => simp only [occStart, matchesAt_congr_prev h]

theorem ctxAfter_nil (prev : Option Char) : ctxAfter prev [] = prev := rfl

theorem ctxAfter_cons (prev : Option Char) (c : Char) (cs : List Char) :
    ctxAfter prev (c :: cs) = ctxAfter (some c) cs := by
  rcases e : cs.getLast? with _ | x
  · have h0 : cs = [] := List.getLast?_eq_none_iff.mp e
    subst h0
    rfl
  · have h1 : (c :: cs).getLast? = some x := by
      cases cs with
      | nil => cases e
      | cons d ds => rw [List.getLast?_cons_cons]; exact e
    unfold ctxAfter
    rw [h1, e]

theorem ctxAfter_ne_nil {a : List Char} (prev : Option Char) (h : a ≠ []) :
    ctxAfter prev a = a.getLast? := by
  unfold ctxAfter
  rcases e : a.getLast? with _ | c
  · exact absurd (List.getLast?_eq_none_iff.mp e) h
  · rfl

theorem occB_append (k : List Char) (a : List Char) :
    ∀ (b : List Char) (prev : Option Char),
      occB k prev (a ++ b) = (occStart k prev a b || occB k (ctxAfter prev a) b) := by
  induction a with
  | nil => intro b prev; simp [occStart, ctxAfter_nil]
  | cons c cs ih =>
    intro b prev
    show occB k prev (c :: (cs ++ b)) = _
    rw [occB, ih, occStart, ctxAfter_cons, Bool.or_assoc]
    rfl

theorem prefix_head_eq {k : List Char} {c : Char} {cs : List Char}
    (h : k <+: (c :: cs)) (hk : k ≠ []) : k.head? = some c := by
  rcases k with _ | ⟨kh, kt⟩
  · exact absurd rfl hk
  · rcases h with ⟨t, ht⟩
    rw [List.cons_append] at ht
    injection ht with h1 _
    rw [h1]
    rfl

theorem matchesAt_false_of_nonword_head {k : List Char}
    (hkh : isWordOpt k.head? = true) {c : Char} {cs : List Char}
    (hs : isWordChar c = false) (p : Option Char) :
    matchesAt k p (c :: cs) = false := by
  cases hpre : k.isPrefixOf (c :: cs)
  · simp [matchesAt, hpre]
  · exfalso
    have hkne : k ≠ [] := by
      intro e
      subst e
      simp [isWordOpt] at hkh
    have hh := prefix_head_eq (List.isPrefixOf_iff_prefix.mp hpre) hkne
    rw [hh] at hkh
    simp only [isWordOpt] at hkh
    rw [hs] at hkh
    cases hkh

theorem occB_nonword_head {k : List Char} (hkh : isWordOpt k.head? = true)
    {s : List Char} (hs : isWordOpt s.head? = false) (p1 p2 : Option Char) :
    occB k p1 s = occB k p2 s := by
  cases s with
  | nil => rfl
  | cons c cs =>
    simp only [List.head?_cons, isWordOpt] at hs
    simp only [occB, matchesAt_false_of_nonword_head hkh hs]

theorem rwGo_zero (k v : List Char) (prev : Option Char) (s : List Char) :
    rwGo k v 0 prev s = s := rfl

theorem rwGo_nil (k v : List Char) (fuel : Nat) (prev : Option Char) :
    rwGo k v fuel prev [] = [] := by
  cases fuel <;> rfl

theorem rwGo_self (k : List Char) :
    ∀ (fuel : Nat) (prev : Option Char) (s : List Char), rwGo k k fuel prev s = s := by
  intro fuel
  induction fuel with
  | zero => intro prev s; rfl
  | succ fuel ih =>
    intro prev s
    cases s with
    | nil => rfl
    | cons c cs =>
      rw [rwGo]
      by_cases hm : matchesAt k prev (c :: cs) = true
      · rw [if_pos hm]
        rcases (matchesAt_true_iff.mp hm).2.1 with ⟨t, ht⟩
        rw [← ht, List.drop_left, ih]
      · rw [if_neg hm, ih]

theorem rwGo_no_occ (k v : List Char) :
    ∀ (fuel : Nat) (prev : Option Char) (s : List Char),
      occB k prev s = false → rwGo k v fuel prev s = s := by
  intro fuel
  induction fuel with
  | zero => intro prev s _; rfl
  | succ fuel ih =>
    intro prev s hocc
    cases s with
    | nil => rfl
    | cons c cs =>
      rw [occB, Bool.or_eq_false_iff] at hocc
      rw [rwGo, if_neg (by simp [hocc.1]), ih (some c) cs hocc.2]

theorem rwGo_head_nonword {k : List Char} (v : List Char)
    (hkh : isWordOpt k.head? = true) (fuel : Nat) (prev : Option Char)
    {s : List Char} (hs : isWordOpt s.head? = false) :
    isWordOpt (rwGo k v fuel prev s).head? = false := by
  cases fuel with
  | zero => exact hs
  | succ fuel =>
    cases s with
    | nil => exact hs
    | cons c cs =>
      simp only [List.head?_cons, isWordOpt] at hs
      rw [rwGo, if_neg (by simp [matchesAt_false_of_nonword_head hkh hs])]
      simpa [isWordOpt] using hs

end Passgage

namespace Passgage

/-! ## First-match decomposition of a replacement pass -/

theorem rwGo_first_match (k v : List Char) (hk : k ≠ []) :
    ∀ (fuel : Nat) (s : List Char) (prev : Option Char), s.length ≤ fuel →
      rwGo k v fuel prev s = s ∨
      ∃ a rest fuel2,
        s = a ++ (k ++ rest) ∧
        rwGo k v fuel prev s = a ++ (v ++ rwGo k v fuel2 k.getLast? rest) ∧
        rest.length ≤ fuel2 ∧
        matchesAt k (ctxAfter prev a) (k ++ rest) = true := by
  intro fuel
  induction fuel with
  | zero =>
    intro s prev _
    left
    rfl
  | succ fuel ih =>
    intro s prev hlen
    cases s with
    | nil => left; rfl
    | cons c cs =>
      by_cases hm : matchesAt k prev (c :: cs) = true
      · right
        rcases (matchesAt_true_iff.mp hm).2.1 with ⟨t, ht⟩
        refine ⟨[], t, fuel, ?_, ?_, ?_, ?_⟩
        · rw [List.nil_append, ht]
        · rw [rwGo, if_pos hm, List.nil_append, ← ht, List.drop_left]
        · have h1 : k.length + t.length = cs.length + 1 := by
            have h2 := congrArg List.length ht
            simpa [List.length_append] using h2
          have h2 : 0 < k.length := List.length_pos.mpr hk
          have h3 : cs.length + 1 ≤ fuel + 1 := by simpa using hlen
          omega
        · rw [ctxAfter_nil, ht]
          exact hm
      · rcases ih cs (some c) (by simp at hlen; omega) with h |
          ⟨a, rest, fuel2, hcs, hout, hrest, hmatch⟩
        · left
          rw [rwGo, if_neg hm, h]
        · right
          refine ⟨c :: a, rest, fuel2, ?_, ?_, hrest, ?_⟩
          · rw [List.cons_append, ← hcs]
          · rw [rwGo, if_neg hm, hout, List.cons_append]
          · rw [ctxAfter_cons]
            exact hmatch

/-! ## No occurrence of a protected key starts inside an inserted value -/

theorem occStart_prev_none {k : List Char} (hkh : isWordOpt k.head? = true)
    (p : Option Char) (a b : List Char) :
    occStart k p a b = true → occStart k none a b = true := by
  cases a with
  | nil => intro h; cases h
  | cons c cs =>
    simp only [occStart, Bool.or_eq_true]
    rintro (h | h)
    · left
      have hb := (matchesAt_true_iff.mp h).2.2.1
      rw [hkh] at hb
      have hp : isWordOpt p = false := by
        cases hv : isWordOpt p
        · rfl
        · exact absurd hv hb
      rw [@matchesAt_congr_prev none p (by rw [hp]; rfl)]
      exact h
    · right
      exact h

theorem occStart_protected {kp : List Char}
    (hkph : isWordOpt kp.head? = true) :
    ∀ (w : List Char),
      (∀ t ∈ w.tails,
        (!(t.isPrefixOf kp && decide (t.length < kp.length)) ||
          wordAtD kp t.length) = true) →
      ∀ (b : List Char), isWordOpt b.head? = false →
      ∀ (p : Option Char), occStart kp p w [] = false → occStart kp p w b = false := by
  intro w
  induction w with
  | nil => intro _ b _ p _; rfl
  | cons c cs ih =>
    intro hsc2 b hb p h0
    rw [occStart, Bool.or_eq_false_iff] at h0
    rw [occStart, Bool.or_eq_false_iff]
    refine ⟨?_, ih (fun t ht => hsc2 t (by
      rw [List.mem_tails] at ht ⊢
      exact ht.trans (List.suffix_cons c cs))) b hb (some c) h0.2⟩
    cases hmm : matchesAt kp p (c :: cs ++ b)
    · rfl
    exfalso
    have hparts := matchesAt_true_iff.mp hmm
    rcases hparts with ⟨hkpne, hpre, hbl, hbr⟩
    have hw0 : (c :: cs) ++ b = c :: cs ++ b := List.cons_append c cs b
    by_cases hle : kp.length ≤ (c :: cs).length
    · have hkpw0 : kp <+: (c :: cs) :=
        List.prefix_of_prefix_length_le hpre (List.prefix_append (c :: cs) b) hle
      have hheadeq : isWordOpt ((c :: cs ++ b).drop kp.length).head? =
          isWordOpt ((c :: cs).drop kp.length).head? := by
        rw [show (c :: cs ++ b) = (c :: cs) ++ b from rfl,
            List.drop_append_eq_append_drop]
        rcases Nat.lt_or_ge kp.length (c :: cs).length with hlt | hge
        · have hdropne : (c :: cs).drop kp.length ≠ [] := by
            intro e
            have hlen := congrArg List.length e
            rw [List.length_drop] at hlen
            simp only [List.length_nil] at hlen
            omega
          rw [List.head?_append_of_ne_nil _ hdropne]
        · have heq : kp.length = (c :: cs).length := Nat.le_antisymm hle hge
          have hdrop0 : (c :: cs).drop kp.length = [] := by
            rw [heq]
            simp
          rw [hdrop0, List.nil_append, heq, Nat.sub_self, List.drop_zero, hb]
          rfl
      have hin : matchesAt kp p (c :: cs ++ []) = true := by
        rw [matchesAt_true_iff]
        refine ⟨hkpne, ?_, hbl, ?_⟩
        · rw [List.append_nil]
          exact hkpw0
        · rw [List.append_nil, ← hheadeq]
          exact hbr
      rw [hin] at h0
      exact Bool.noConfusion h0.1
    · push_neg at hle
      have hw0p : (c :: cs) <+: kp :=
        List.prefix_of_prefix_length_le (List.prefix_append (c :: cs) b) hpre
          (Nat.le_of_lt hle)
      have hcell := hsc2 (c :: cs) (by rw [List.mem_tails])
      rw [Bool.or_eq_true] at hcell
      rcases hcell with hcell | hcell
      · rw [Bool.not_eq_true', Bool.and_eq_false_iff] at hcell
        rcases hcell with hcell | hcell
        · have hpt : (c :: cs).isPrefixOf kp = true :=
            List.isPrefixOf_iff_prefix.mpr hw0p
          rw [hpt] at hcell
          exact Bool.noConfusion hcell
        · simp only [decide_eq_false_iff_not, Nat.not_lt] at hcell
          omega
      · rcases hw0p with ⟨t2, ht2⟩
        have hdropkp : kp.drop (c :: cs).length = t2 := by
          rw [← ht2, List.drop_left]
        have ht2pre : t2 <+: b := by
          rcases hpre with ⟨t3, ht3⟩
          rw [← ht2, List.append_assoc] at ht3
          have := List.append_cancel_left (ht3.symm ▸ rfl : (c :: cs) ++ (t2 ++ t3) = (c :: cs) ++ b)
          exact ⟨t3, this⟩
        have ht2ne : t2 ≠ [] := by
          intro e
          subst e
          have hlen2 := congrArg List.length ht2
          simp only [List.length_append, List.length_nil, Nat.add_zero] at hlen2
          omega
        unfold wordAtD at hcell
        rw [hdropkp] at hcell
        rcases t2 with _ | ⟨t2h, t2t⟩
        · exact ht2ne rfl
        · rcases ht2pre with ⟨t4, ht4⟩
          rw [← ht4] at hb
          simp only [List.cons_append, List.head?_cons, isWordOpt] at hb
          simp only [List.head?_cons] at hcell
          rw [hb] at hcell
          exact Bool.noConfusion hcell

end Passgage

namespace Passgage

/-! ## Extracting the four side conditions from `pairOK` -/

theorem pairOK_sc1 {kp v : List Char} (h : pairOK kp v = true) :
    occStart kp none v [] = false := by
  unfold pairOK at h
  simp only [Bool.and_eq_true, beq_iff_eq] at h
  exact h.1.1.1

theorem pairOK_sc2 {kp v : List Char} (h : pairOK kp v = true) :
    ∀ t ∈ v.tails,
      (!(t.isPrefixOf kp && decide (t.length < kp.length)) ||
        wordAtD kp t.length) = true := by
  unfold pairOK at h
  simp only [Bool.and_eq_true, List.all_eq_true] at h
  exact h.1.1.2

theorem pairOK_sc3 {kp v : List Char} (h : pairOK kp v = true) :
    ∀ i, i < kp.length → wordAtD kp i = false →
      (kp.drop (i + 1)).isPrefixOf v = false := by
  unfold pairOK at h
  simp only [Bool.and_eq_true, List.all_eq_true, List.mem_range] at h
  intro i hi hw
  have hcell := h.1.2 i hi
  rw [Bool.or_eq_true] at hcell
  rcases hcell with h1 | h1
  · rw [hw] at h1
    exact Bool.noConfusion h1
  · rw [Bool.not_eq_true'] at h1
    exact h1

theorem pairOK_sc4 {kp v : List Char} (h : pairOK kp v = true) :
    ∀ i, i < kp.length → wordAtD kp i = false →
      v.isPrefixOf (kp.drop (i + 1)) = true →
      wordAtD kp (i + 1 + v.length) = true := by
  unfold pairOK at h
  simp only [Bool.and_eq_true, List.all_eq_true, List.mem_range] at h
  intro i hi hw hpre
  have hcell := h.2 i hi
  simp only [Bool.or_eq_true] at hcell
  rcases hcell with (h1 | h1) | h1
  · rw [hw] at h1
    exact Bool.noConfusion h1
  · rw [Bool.not_eq_true'] at h1
    rw [hpre] at h1
    exact Bool.noConfusion h1
  · exact h1

/-! ## Small auxiliary facts -/

theorem ctxAfter_some_cons (c : Char) (a : List Char) :
    ctxAfter (some c) a = (c :: a).getLast? := by
  cases a with
  | nil => simp [ctxAfter]
  | cons x xs =>
    rw [ctxAfter_ne_nil (some c) (by simp), List.getLast?_cons_cons]

theorem drop_head_lt {A : List Char} {n : Nat} (h : n < A.length) (b : List Char) :
    ((A ++ b).drop n).head? = (A.drop n).head? := by
  have hdropne : A.drop n ≠ [] := by
    intro e
    have hlen := congrArg List.length e
    rw [List.length_drop] at hlen
    simp only [List.length_nil] at hlen
    omega
  rw [List.drop_append_eq_append_drop, List.head?_append_of_ne_nil _ hdropne]

theorem head?_of_cons_prefix {x : Char} {xs l : List Char}
    (h : (x :: xs) <+: l) : l.head? = some x := by
  rcases h with ⟨t, ht⟩
  rw [← ht]
  rfl

end Passgage

namespace Passgage

/-! ## Main preservation lemma: one replacement pass creates no occurrence
of a protected key, and removes every occurrence of its own key -/

theorem rwGo_no_new_occ {k v kp : List Char}
    (hk : k ≠ []) (hv : v ≠ [])
    (hkh : isWordOpt k.head? = true) (hkl : isWordOpt k.getLast? = true)
    (hkph : isWordOpt kp.head? = true) (hkpl : isWordOpt kp.getLast? = true)
    (hpair : pairOK kp v = true) :
    ∀ (fuel : Nat) (s : List Char) (p q : Option Char),
      s.length ≤ fuel → isWordOpt p = isWordOpt q →
      (kp = k ∨ occB kp p s = false) →
      occB kp p (rwGo k v fuel q s) = false := by
  intro fuel
  induction fuel with
  | zero =>
    intro s p q hlen _ _
    have hs : s = [] := List.length_eq_zero.mp (Nat.le_zero.mp hlen)
    subst hs
    rfl
  | succ fuel ih =>
    intro s p q hlen hpq hyp
    cases s with
    | nil =>
      rw [rwGo_nil]
      rfl
    | cons c cs =>
      by_cases hm : matchesAt k q (c :: cs) = true
      · rw [rwGo, if_pos hm]
        obtain ⟨-, hkpre, -, hbr⟩ := matchesAt_true_iff.mp hm
        rw [hkl] at hbr
        have hresthead : isWordOpt (((c :: cs).drop k.length).head?) = false := by
          cases hval : isWordOpt (((c :: cs).drop k.length).head?)
          · rfl
          · exact absurd hval.symm hbr
        have hout' : isWordOpt (rwGo k v fuel k.getLast?
            ((c :: cs).drop k.length)).head? = false :=
          rwGo_head_nonword v hkh fuel k.getLast? hresthead
        rw [occB_append, Bool.or_eq_false_iff]
        constructor
        · cases hso : occStart kp p v
            (rwGo k v fuel k.getLast? ((c :: cs).drop k.length))
          · rfl
          · exfalso
            have h1 := occStart_prev_none hkph p v _ hso
            have h2 := occStart_protected hkph v (pairOK_sc2 hpair) _ hout' none
              (pairOK_sc1 hpair)
            rw [h1] at h2
            exact Bool.noConfusion h2
        · have hlen2 : ((c :: cs).drop k.length).length ≤ fuel := by
            rw [List.length_drop]
            have h3 : 0 < k.length := List.length_pos.mpr hk
            simp only [List.length_cons] at hlen ⊢
            omega
          have hyp2 : kp = k ∨
              occB kp k.getLast? ((c :: cs).drop k.length) = false := by
            rcases hyp with hyp | hyp
            · exact Or.inl hyp
            · right
              rcases hkpre with ⟨t, ht⟩
              have hrt : (c :: cs).drop k.length = t := by
                rw [← ht, List.drop_left]
              rw [← ht, occB_append, Bool.or_eq_false_iff] at hyp
              have h4 := hyp.2
              rw [ctxAfter_ne_nil p hk] at h4
              rw [hrt]
              exact h4
          have hIH := ih ((c :: cs).drop k.length) k.getLast? k.getLast? hlen2 rfl hyp2
          rw [occB_nonword_head hkph hout' (ctxAfter p v) k.getLast?]
          exact hIH
      · rw [rwGo, if_neg hm]
        have hlen2 : cs.length ≤ fuel := by
          simp only [List.length_cons] at hlen
          omega
        have hyp2 : kp = k ∨ occB kp (some c) cs = false := by
          rcases hyp with hyp | hyp
          · exact Or.inl hyp
          · right
            rw [occB, Bool.or_eq_false_iff] at hyp
            exact hyp.2
        have hIH := ih cs (some c) (some c) hlen2 rfl hyp2
        rw [occB, Bool.or_eq_false_iff]
        refine ⟨?_, hIH⟩
        have hnm : matchesAt kp p (c :: cs) = false := by
          rcases hyp with hyp | hyp
          · rw [hyp, matchesAt_congr_prev hpq]
            simpa using hm
          · rw [occB, Bool.or_eq_false_iff] at hyp
            exact hyp.1
        cases hcontra : matchesAt kp p (c :: rwGo k v fuel (some c) cs)
        · rfl
        exfalso
        rcases rwGo_first_match k v hk fuel cs (some c) hlen2 with hid |
          ⟨a, rest, fuel2, hcs, hout, hrest, hmatch⟩
        · rw [hid, hnm] at hcontra
          exact Bool.noConfusion hcontra
        subst hcs
        rw [hout] at hcontra
        obtain ⟨hkpne, hpre, hbl2, hbr2⟩ := matchesAt_true_iff.mp hcontra
        have hctxnw : isWordOpt (ctxAfter (some c) a) = false := by
          obtain ⟨-, -, hbl3, -⟩ := matchesAt_true_iff.mp hmatch
          rw [hkh] at hbl3
          cases hval : isWordOpt (ctxAfter (some c) a)
          · rfl
          · exact absurd hval hbl3
        have hresthead : isWordOpt rest.head? = false := by
          obtain ⟨-, -, -, hbr3⟩ := matchesAt_true_iff.mp hmatch
          rw [hkl, List.drop_left] at hbr3
          cases hval : isWordOpt rest.head?
          · rfl
          · exact absurd hval.symm hbr3
        have hout2head : isWordOpt (rwGo k v fuel2 k.getLast? rest).head? = false :=
          rwGo_head_nonword v hkh fuel2 k.getLast? hresthead
        by_cases hAcase : kp.length ≤ (c :: a).length
        · have hkpA : kp <+: (c :: a) :=
            List.prefix_of_prefix_length_le hpre
              (List.prefix_append (c :: a) (v ++ rwGo k v fuel2 k.getLast? rest))
              hAcase
          rcases Nat.lt_or_ge kp.length (c :: a).length with hlt | hge
          · have hmm2 : matchesAt kp p (c :: (a ++ (k ++ rest))) = true := by
              rw [← List.cons_append, drop_head_lt hlt] at hbr2
              rw [matchesAt_true_iff]
              refine ⟨hkpne, hkpA.trans (List.prefix_append _ _), hbl2, ?_⟩
              rw [← List.cons_append, drop_head_lt hlt]
              exact hbr2
            rw [hnm] at hmm2
            exact Bool.noConfusion hmm2
          · have heq : kp.length = (c :: a).length := Nat.le_antisymm hAcase hge
            have hkpeq : kp = c :: a := List.IsPrefix.eq_of_length hkpA heq
            rw [ctxAfter_some_cons, ← hkpeq, hkpl] at hctxnw
            exact Bool.noConfusion hctxnw
        · push_neg at hAcase
          have hApre : (c :: a) <+: kp :=
            List.prefix_of_prefix_length_le
              (List.prefix_append (c :: a) (v ++ rwGo k v fuel2 k.getLast? rest))
              hpre (Nat.le_of_lt hAcase)
          obtain ⟨kp2, hkp2⟩ := hApre
          have hkp2ne : kp2 ≠ [] := by
            intro e
            subst e
            have hlen3 := congrArg List.length hkp2
            simp only [List.length_append, List.length_nil, Nat.add_zero] at hlen3
            omega
          rcases List.eq_nil_or_concat (c :: a) with hnil | ⟨A2, x, hAx⟩
          · exact absurd hnil (by simp)
          rw [List.concat_eq_append] at hAx
          have hxnw : isWordChar x = false := by
            rw [ctxAfter_some_cons, hAx, List.getLast?_concat] at hctxnw
            simpa [isWordOpt] using hctxnw
          have hkpform2 : kp = (A2 ++ [x]) ++ kp2 := by
            rw [← hkp2, hAx]
          have hkpform : kp = A2 ++ (x :: kp2) := by
            rw [hkpform2, List.append_assoc, List.singleton_append]
          have hdropi : kp.drop A2.length = x :: kp2 := by
            rw [hkpform, List.drop_left]
          have hwi : wordAtD kp A2.length = false := by
            unfold wordAtD
            rw [hdropi, List.head?_cons]
            exact hxnw
          have hilt : A2.length < kp.length := by
            have hl5 := congrArg List.length hkpform
            simp only [List.length_append, List.length_cons] at hl5
            omega
          have hdropi1 : kp.drop (A2.length + 1) = kp2 := by
            rw [hkpform2]
            have h5 : A2.length + 1 = (A2 ++ [x]).length := by simp
            rw [h5, List.drop_left]
          have hkp2pre : kp2 <+: (v ++ rwGo k v fuel2 k.getLast? rest) := by
            refine (List.prefix_append_right_inj (c :: a)).mp ?_
            rw [hkp2]
            exact hpre
          by_cases hv2 : kp2.length ≤ v.length
          · have hkp2v : kp2 <+: v :=
              List.prefix_of_prefix_length_le hkp2pre
                (List.prefix_append v (rwGo k v fuel2 k.getLast? rest)) hv2
            have hsc3 := pairOK_sc3 hpair A2.length hilt hwi
            rw [hdropi1, List.isPrefixOf_iff_prefix.mpr hkp2v] at hsc3
            exact Bool.noConfusion hsc3
          · push_neg at hv2
            have hvkp2 : v <+: kp2 :=
              List.prefix_of_prefix_length_le
                (List.prefix_append v (rwGo k v fuel2 k.getLast? rest)) hkp2pre
                (Nat.le_of_lt hv2)
            obtain ⟨kp3, hkp3⟩ := hvkp2
            have hkp3ne : kp3 ≠ [] := by
              intro e
              subst e
              have hlen4 := congrArg List.length hkp3
              simp only [List.length_append, List.length_nil, Nat.add_zero] at hlen4
              omega
            rcases kp3 with _ | ⟨k3h, k3t⟩
            · exact absurd rfl hkp3ne
            have hpre4 : v.isPrefixOf (kp.drop (A2.length + 1)) = true := by
              rw [hdropi1]
              exact List.isPrefixOf_iff_prefix.mpr ⟨k3h :: k3t, hkp3⟩
            have hsc4 := pairOK_sc4 hpair A2.length hilt hwi hpre4
            have hdropiv : kp.drop (A2.length + 1 + v.length) = k3h :: k3t := by
              rw [hkpform2, ← hkp3]
              have h5 : A2.length + 1 + v.length = ((A2 ++ [x]) ++ v).length := by
                simp only [List.length_append, List.length_cons, List.length_nil]
              rw [h5, ← List.append_assoc, List.drop_left]
            have hwordk3h : isWordChar k3h = true := by
              unfold wordAtD at hsc4
              rw [hdropiv, List.head?_cons] at hsc4
              exact hsc4
            have hkp3out : (k3h :: k3t) <+: rwGo k v fuel2 k.getLast? rest := by
              refine (List.prefix_append_right_inj v).mp ?_
              rw [hkp3]
              exact hkp2pre
            have hhead := head?_of_cons_prefix hkp3out
            rw [hhead] at hout2head
            simp only [isWordOpt] at hout2head
            rw [hwordk3h] at hout2head
            exact Bool.noConfusion hout2head

end Passgage

namespace Passgage

/-! ## Whitespace characters are not word characters -/

theorem isWordChar_toNat {c : Char} (h : isWordChar c = true) :
    (97 ≤ c.toNat ∧ c.toNat ≤ 122) ∨ (65 ≤ c.toNat ∧ c.toNat ≤ 90) ∨
    (48 ≤ c.toNat ∧ c.toNat ≤ 57) ∨ c.toNat = 95 := by
  unfold isWordChar at h
  simp only [Bool.or_eq_true, Bool.and_eq_true, decide_eq_true_eq, beq_iff_eq] at h
  rcases h with ((⟨h1, h2⟩ | ⟨h1, h2⟩) | ⟨h1, h2⟩) | h1
  · exact Or.inl ⟨h1, h2⟩
  · exact Or.inr (Or.inl ⟨h1, h2⟩)
  · exact Or.inr (Or.inr (Or.inl ⟨h1, h2⟩))
  · subst h1
    exact Or.inr (Or.inr (Or.inr (by decide)))

theorem isJsSpace_not_word {c : Char} (h : isJsSpace c = true) :
    isWordChar c = false := by
  cases hval : isWordChar c
  · rfl
  exfalso
  have hr := isWordChar_toNat hval
  unfold isJsSpace at h
  simp only [Bool.or_eq_true, beq_iff_eq, Bool.and_eq_true, decide_eq_true_eq] at h
  rcases h with (((((((((((((h | h) | h) | h) | h) | h) | h) | h) | h) | h) | h) | h) | h) | h) | h
  · subst h; revert hr; decide
  · subst h; revert hr; decide
  · subst h; revert hr; decide
  · subst h; revert hr; decide
  all_goals omega

theorem drop_head_wordness {A : List Char} {n : Nat} (hle : n ≤ A.length)
    {b : List Char} (hb : isWordOpt b.head? = false) :
    isWordOpt (((A ++ b).drop n).head?) = isWordOpt ((A.drop n).head?) := by
  rcases Nat.lt_or_ge n A.length with hlt | hge
  · rw [drop_head_lt hlt]
  · have heq : n = A.length := Nat.le_antisymm hle hge
    rw [List.drop_append_eq_append_drop]
    have hdrop0 : A.drop n = [] := by
      rw [heq]
      simp
    rw [hdrop0, List.nil_append, heq, Nat.sub_self, List.drop_zero, hb]
    rfl

/-! ## Occurrence pullback through whitespace collapsing -/

theorem collapseWs_head_space : ∀ (t : List Char) (c : Char), isJsSpace c = true →
    (collapseWs (c :: t)).head? = some ' ' := by
  intro t
  induction t with
  | nil =>
    intro c hc
    rw [show collapseWs [c] = if isJsSpace c then [' '] else [c] from rfl, if_pos hc]
    rfl
  | cons c2 rest ih =>
    intro c hc
    rw [show collapseWs (c :: c2 :: rest) =
        if isJsSpace c && isJsSpace c2 then collapseWs (c2 :: rest)
        else (if isJsSpace c then ' ' else c) :: collapseWs (c2 :: rest) from rfl]
    cases hc2 : isJsSpace c2
    · rw [if_neg (by simp [hc, hc2]), if_pos hc]
      rfl
    · rw [if_pos (by simp [hc, hc2])]
      exact ih c2 hc2

theorem collapseWs_head_wordness (z : List Char) :
    isWordOpt (collapseWs z).head? = isWordOpt z.head? := by
  cases z with
  | nil => rfl
  | cons c1 tail =>
    cases tail with
    | nil =>
      cases hc1 : isJsSpace c1
      · rw [show collapseWs [c1] = if isJsSpace c1 then [' '] else [c1] from rfl,
          if_neg (by simp [hc1])]
      · rw [show collapseWs [c1] = if isJsSpace c1 then [' '] else [c1] from rfl,
          if_pos hc1]
        simp only [List.head?_cons, isWordOpt]
        rw [isJsSpace_not_word hc1]
        decide
    | cons c2 rest =>
      rw [show collapseWs (c1 :: c2 :: rest) =
          if isJsSpace c1 && isJsSpace c2 then collapseWs (c2 :: rest)
          else (if isJsSpace c1 then ' ' else c1) :: collapseWs (c2 :: rest) from rfl]
      rcases Bool.eq_false_or_eq_true (isJsSpace c1) with hc1 | hc1
      · rcases Bool.eq_false_or_eq_true (isJsSpace c2) with hc2 | hc2
        · rw [if_pos (by simp [hc1, hc2])]
          rw [collapseWs_head_space rest c2 hc2]
          simp only [List.head?_cons, isWordOpt]
          rw [isJsSpace_not_word hc1]
          decide
        · rw [if_neg (by simp [hc2]), if_pos hc1]
          simp only [List.head?_cons, isWordOpt]
          rw [isJsSpace_not_word hc1]
          decide
      · rw [if_neg (by simp [hc1]), if_neg (by simp [hc1])]
        rfl

theorem prefix_pullback_collapse :
    ∀ (k : List Char), (∀ c ∈ k, isJsSpace c = false) → ∀ (z : List Char),
      k <+: collapseWs z →
      k <+: z ∧ isWordOpt (((collapseWs z).drop k.length).head?) =
        isWordOpt ((z.drop k.length).head?) := by
  intro k
  induction k with
  | nil =>
    intro _ z _
    refine ⟨List.nil_prefix, ?_⟩
    simp only [List.length_nil, List.drop_zero]
    exact collapseWs_head_wordness z
  | cons c0 k' ih =>
    intro hfree z hpre
    have hsp0 : isJsSpace c0 = false := hfree c0 (by simp)
    cases z with
    | nil =>
      have hnil : (c0 :: k') = [] := List.prefix_nil.mp hpre
      exact absurd hnil (by simp)
    | cons c1 tail =>
      cases tail with
      | nil =>
        cases hc1 : isJsSpace c1
        · rw [show collapseWs [c1] = if isJsSpace c1 then [' '] else [c1] from rfl,
            if_neg (by simp [hc1])] at hpre ⊢
          rw [List.cons_prefix_cons] at hpre
          obtain ⟨he, hk'⟩ := hpre
          have hk'nil : k' = [] := List.prefix_nil.mp hk'
          subst he hk'nil
          exact ⟨List.prefix_refl _, rfl⟩
        · rw [show collapseWs [c1] = if isJsSpace c1 then [' '] else [c1] from rfl,
            if_pos hc1] at hpre
          rw [List.cons_prefix_cons] at hpre
          exact absurd (hpre.1 ▸ hsp0) (by decide)
      | cons c2 rest =>
        by_cases hb : (isJsSpace c1 && isJsSpace c2) = true
        · rw [show collapseWs (c1 :: c2 :: rest) =
              if isJsSpace c1 && isJsSpace c2 then collapseWs (c2 :: rest)
              else (if isJsSpace c1 then ' ' else c1) :: collapseWs (c2 :: rest)
              from rfl, if_pos hb] at hpre
          have hc2 : isJsSpace c2 = true := by
            rw [Bool.and_eq_true] at hb
            exact hb.2
          have hhead := head?_of_cons_prefix hpre
          rw [collapseWs_head_space rest c2 hc2] at hhead
          injection hhead with he
          exact absurd (he ▸ hsp0) (by decide)
        · rw [show collapseWs (c1 :: c2 :: rest) =
              if isJsSpace c1 && isJsSpace c2 then collapseWs (c2 :: rest)
              else (if isJsSpace c1 then ' ' else c1) :: collapseWs (c2 :: rest)
              from rfl, if_neg hb] at hpre ⊢
          rw [List.cons_prefix_cons] at hpre
          obtain ⟨he, hk'⟩ := hpre
          cases hc1 : isJsSpace c1
          · rw [if_neg (by simp [hc1])] at he
            subst he
            obtain ⟨hp', hb'⟩ :=
              ih (fun c hc => hfree c (List.mem_cons_of_mem _ hc)) (c2 :: rest) hk'
            constructor
            · rw [List.cons_prefix_cons]
              exact ⟨rfl, hp'⟩
            · simp only [List.length_cons, List.drop_succ_cons]
              exact hb'
          · rw [if_pos hc1] at he
            exact absurd (he ▸ hsp0) (by decide)

theorem matchesAt_collapse {k : List Char} (hfree : ∀ c ∈ k, isJsSpace c = false)
    {q : Option Char} {z : List Char} (h : matchesAt k q (collapseWs z) = true) :
    matchesAt k q z = true := by
  obtain ⟨hkne, hpre, hbl, hbr⟩ := matchesAt_true_iff.mp h
  obtain ⟨hp, hb⟩ := prefix_pullback_collapse k hfree z hpre
  rw [matchesAt_true_iff]
  refine ⟨hkne, hp, hbl, ?_⟩
  rw [← hb]
  exact hbr

theorem occB_collapse {k : List Char} (hkh : isWordOpt k.head? = true)
    (hfree : ∀ c ∈ k, isJsSpace c = false) :
    ∀ (z : List Char) (p q : Option Char), isWordOpt p = isWordOpt q →
      occB k p z = false → occB k q (collapseWs z) = false := by
  intro z
  induction z with
  | nil => intro p q _ _; rfl
  | cons c1 tail ih =>
    intro p q hpq hocc
    rw [occB, Bool.or_eq_false_iff] at hocc
    cases tail with
    | nil =>
      have h1 : matchesAt k q (collapseWs [c1]) = false := by
        cases hx : matchesAt k q (collapseWs [c1])
        · rfl
        exfalso
        have h2 := matchesAt_collapse hfree hx
        rw [← matchesAt_congr_prev hpq] at h2
        rw [hocc.1] at h2
        exact Bool.noConfusion h2
      cases hc1 : isJsSpace c1
      · rw [show collapseWs [c1] = if isJsSpace c1 then [' '] else [c1] from rfl,
          if_neg (by simp [hc1])] at h1 ⊢
        rw [occB, h1]
        rfl
      · rw [show collapseWs [c1] = if isJsSpace c1 then [' '] else [c1] from rfl,
          if_pos hc1] at h1 ⊢
        rw [occB, h1]
        rfl
    | cons c2 rest =>
      by_cases hb : (isJsSpace c1 && isJsSpace c2) = true
      · rw [show collapseWs (c1 :: c2 :: rest) =
            if isJsSpace c1 && isJsSpace c2 then collapseWs (c2 :: rest)
            else (if isJsSpace c1 then ' ' else c1) :: collapseWs (c2 :: rest)
            from rfl, if_pos hb]
        have hc2 : isJsSpace c2 = true := by
            rw [Bool.and_eq_true] at hb
            exact hb.2
        have hIH : occB k (some c1) (collapseWs (c2 :: rest)) = false :=
          ih (some c1) (some c1) rfl hocc.2
        have hheadnw : isWordOpt (collapseWs (c2 :: rest)).head? = false := by
          rw [collapseWs_head_space rest c2 hc2]
          simp only [isWordOpt]
          decide
        rw [occB_nonword_head hkh hheadnw q (some c1)]
        exact hIH
      · rw [show collapseWs (c1 :: c2 :: rest) =
            if isJsSpace c1 && isJsSpace c2 then collapseWs (c2 :: rest)
            else (if isJsSpace c1 then ' ' else c1) :: collapseWs (c2 :: rest)
            from rfl, if_neg hb]
        have hd : isWordOpt (some (if isJsSpace c1 then ' ' else c1)) =
            isWordOpt (some c1) := by
          rcases Bool.eq_false_or_eq_true (isJsSpace c1) with hc1 | hc1
          · rw [if_pos hc1]
            simp only [isWordOpt]
            rw [isJsSpace_not_word hc1]
            decide
          · rw [if_neg (by simp [hc1])]
        rw [occB, Bool.or_eq_false_iff]
        constructor
        · cases hx : matchesAt k q
              ((if isJsSpace c1 then ' ' else c1) :: collapseWs (c2 :: rest))
          · rfl
          exfalso
          have hx2 : matchesAt k q (collapseWs (c1 :: c2 :: rest)) = true := by
            rw [show collapseWs (c1 :: c2 :: rest) =
                if isJsSpace c1 && isJsSpace c2 then collapseWs (c2 :: rest)
                else (if isJsSpace c1 then ' ' else c1) :: collapseWs (c2 :: rest)
                from rfl, if_neg hb]
            exact hx
          have h2 := matchesAt_collapse hfree hx2
          rw [← matchesAt_congr_prev hpq] at h2
          rw [hocc.1] at h2
          exact Bool.noConfusion h2
        · exact ih (some c1) (some (if isJsSpace c1 then ' ' else c1)) hd.symm hocc.2

end Passgage

namespace Passgage

/-! ## Occurrence pullback through trimming -/

theorem occStart_nil_right (k : List Char) :
    ∀ (a : List Char) (p : Option Char), occStart k p a [] = occB k p a := by
  intro a
  induction a with
  | nil => intro p; rfl
  | cons c cs ih =>
    intro p
    rw [occStart, occB, List.append_nil, ih]

theorem occStart_of_occB {k : List Char} (hkh : isWordOpt k.head? = true) :
    ∀ (core b : List Char) (q c' : Option Char),
      isWordOpt b.head? = false →
      (isWordOpt c' = false ∨ isWordOpt c' = isWordOpt q) →
      occB k q core = true → occStart k c' core b = true := by
  intro core
  induction core with
  | nil =>
    intro b q c' _ _ h
    exact absurd h (by simp [occB])
  | cons c cs ih =>
    intro b q c' hb hc' hocc
    rw [occB, Bool.or_eq_true] at hocc
    rw [occStart, Bool.or_eq_true]
    rcases hocc with hm | hocc
    · left
      obtain ⟨hkne, hp, hl, hr⟩ := matchesAt_true_iff.mp hm
      rw [matchesAt_true_iff]
      refine ⟨hkne, hp.trans (List.prefix_append _ _), ?_, ?_⟩
      · rw [hkh] at hl ⊢
        rcases hc' with hc' | hc'
        · rw [hc']
          simp
        · rw [hc']
          exact hl
      · have hlen : k.length ≤ (c :: cs).length := hp.length_le
        rw [drop_head_wordness hlen hb]
        exact hr
    · right
      exact ih b (some c) (some c) hb (Or.inr rfl) hocc

theorem jsTrim_decomp (z : List Char) :
    ∃ spA spB, z = spA ++ (jsTrim z ++ spB) ∧
      (∀ c ∈ spA, isJsSpace c = true) ∧ (∀ c ∈ spB, isJsSpace c = true) := by
  refine ⟨z.takeWhile isJsSpace,
    ((z.dropWhile isJsSpace).reverse.takeWhile isJsSpace).reverse, ?_, ?_, ?_⟩
  · have h2 := List.takeWhile_append_dropWhile isJsSpace (z.dropWhile isJsSpace).reverse
    have h3 := congrArg List.reverse h2
    rw [List.reverse_append, List.reverse_reverse] at h3
    unfold jsTrim
    conv_lhs => rw [← List.takeWhile_append_dropWhile isJsSpace z, ← h3]
  · intro c hc
    exact List.mem_takeWhile_imp hc
  · intro c hc
    rw [List.mem_reverse] at hc
    exact List.mem_takeWhile_imp hc

theorem occB_jsTrim {k : List Char} (hkh : isWordOpt k.head? = true)
    (z : List Char) (p q : Option Char) (hpq : isWordOpt p = isWordOpt q)
    (hocc : occB k p z = false) : occB k q (jsTrim z) = false := by
  obtain ⟨spA, spB, hdec, hA, hB⟩ := jsTrim_decomp z
  cases hx : occB k q (jsTrim z)
  · rfl
  exfalso
  rw [hdec, occB_append, Bool.or_eq_false_iff] at hocc
  have h2 := hocc.2
  rw [occB_append, Bool.or_eq_false_iff] at h2
  have h3 := h2.1
  have hbnw : isWordOpt spB.head? = false := by
    cases spB with
    | nil => rfl
    | cons b bs =>
      simp only [List.head?_cons, isWordOpt]
      exact isJsSpace_not_word (hB b (by simp))
  have hcnw : isWordOpt (ctxAfter p spA) = false ∨
      isWordOpt (ctxAfter p spA) = isWordOpt q := by
    cases spA with
    | nil =>
      right
      rw [ctxAfter_nil]
      exact hpq
    | cons a as =>
      left
      rw [ctxAfter_ne_nil p (by simp)]
      rcases e : (a :: as).getLast? with _ | x
      · exact absurd (List.getLast?_eq_none_iff.mp e) (by simp)
      · have hxmem : x ∈ a :: as := by
          obtain ⟨hne, hx2⟩ := List.mem_getLast?_eq_getLast e
          rw [hx2]
          exact List.getLast_mem hne
        simp only [isWordOpt]
        exact isJsSpace_not_word (hA x hxmem)
  have h4 := occStart_of_occB hkh (jsTrim z) spB q (ctxAfter p spA) hbnw hcnw hx
  rw [h3] at h4
  exact Bool.noConfusion h4

end Passgage

namespace Passgage

/-! ## Extracting the typo-map well-formedness conditions -/

theorem entryShapeOK_spec {k v : List Char} (h : entryShapeOK k v = true) :
    k ≠ [] ∧ v ≠ [] ∧ isWordOpt k.head? = true ∧ isWordOpt k.getLast? = true ∧
      ∀ c ∈ k, isJsSpace c = false := by
  unfold entryShapeOK at h
  simp only [Bool.and_eq_true, Bool.not_eq_true', List.all_eq_true] at h
  obtain ⟨⟨⟨⟨h1, h2⟩, h3⟩, h4⟩, h5⟩ := h
  refine ⟨?_, ?_, h3, h4, h5⟩
  · intro e
    subst e
    simp at h1
  · intro e
    subst e
    simp at h2

theorem typoMapOK_shape {L : List (String × String)} (h : typoMapOK L = true) :
    ∀ e ∈ L, e.1 = e.2 ∨ entryShapeOK e.1.data e.2.data = true := by
  unfold typoMapOK at h
  rw [Bool.and_eq_true, Bool.and_eq_true] at h
  intro e he
  have h1 := h.1.1
  rw [List.all_eq_true] at h1
  have h2 := h1 e he
  rw [Bool.or_eq_true] at h2
  rcases h2 with h2 | h2
  · left
    rw [beq_iff_eq] at h2
    exact h2
  · right
    exact h2

theorem typoMapOK_values {L : List (String × String)} (h : typoMapOK L = true) :
    ∀ e ∈ L, (∀ c ∈ e.2.data, goodChar c = true) ∧
      canonicalSpacing e.2.data = true := by
  unfold typoMapOK at h
  rw [Bool.and_eq_true, Bool.and_eq_true] at h
  intro e he
  have h1 := h.1.2
  rw [List.all_eq_true] at h1
  have h2 := h1 e he
  rw [Bool.and_eq_true] at h2
  refine ⟨?_, h2.2⟩
  intro c hc
  have h3 := h2.1
  rw [List.all_eq_true] at h3
  exact h3 c hc

theorem typoMapOK_pairs {L : List (String × String)} (h : typoMapOK L = true) :
    ∀ e ∈ L, e.1 ≠ e.2 → ∀ e' ∈ L, pairOK e.1.data e'.2.data = true := by
  unfold typoMapOK at h
  rw [Bool.and_eq_true, Bool.and_eq_true] at h
  intro e he hne e' he'
  have h1 := h.2
  rw [List.all_eq_true] at h1
  have h2 := h1 e (by
    rw [List.mem_filter]
    exact ⟨he, by simp [bne_iff_ne, hne]⟩)
  rw [List.all_eq_true] at h2
  exact h2 e' he'

/-! ## The typo-map fold: establishing and preserving no-occurrence -/

theorem foldRW_no_occ {kp : List Char}
    (hkph : isWordOpt kp.head? = true) (hkpl : isWordOpt kp.getLast? = true) :
    ∀ (L : List (String × String)),
      (∀ e ∈ L, e.1 = e.2 ∨ entryShapeOK e.1.data e.2.data = true) →
      (∀ e ∈ L, e.1 ≠ e.2 → pairOK kp e.2.data = true) →
      ∀ (s : List Char), occB kp none s = false →
        occB kp none
          (L.foldl (fun acc e => replaceWordAll e.1.data e.2.data acc) s) = false := by
  intro L
  induction L with
  | nil =>
    intro _ _ s hs
    exact hs
  | cons e L ih =>
    intro hshape hpair s hs
    rw [List.foldl_cons]
    by_cases heq : e.1 = e.2
    · rw [show replaceWordAll e.1.data e.2.data s = s from by
        rw [replaceWordAll, heq, rwGo_self]]
      exact ih (fun e' he' => hshape e' (List.mem_cons_of_mem _ he'))
        (fun e' he' hne' => hpair e' (List.mem_cons_of_mem _ he') hne') s hs
    · rcases hshape e (by simp) with hsh | hsh
      · exact absurd hsh heq
      obtain ⟨hk, hv, hkh, hkl, hfree⟩ := entryShapeOK_spec hsh
      have hstep : occB kp none (replaceWordAll e.1.data e.2.data s) = false := by
        rw [replaceWordAll]
        exact rwGo_no_new_occ hk hv hkh hkl hkph hkpl (hpair e (by simp) heq)
          s.length s none none (Nat.le_refl _) rfl (Or.inr hs)
      exact ih (fun e' he' => hshape e' (List.mem_cons_of_mem _ he'))
        (fun e' he' hne' => hpair e' (List.mem_cons_of_mem _ he') hne') _ hstep

theorem foldRW_establishes :
    ∀ (L : List (String × String)),
      (∀ e ∈ L, e.1 = e.2 ∨ entryShapeOK e.1.data e.2.data = true) →
      ∀ e0 ∈ L, e0.1 ≠ e0.2 →
      (∀ e' ∈ L, e'.1 ≠ e'.2 → pairOK e0.1.data e'.2.data = true) →
      ∀ (s : List Char),
        occB e0.1.data none
          (L.foldl (fun acc e => replaceWordAll e.1.data e.2.data acc) s) = false := by
  intro L
  induction L with
  | nil =>
    intro _ e0 he0
    exact absurd he0 (by simp)
  | cons e L ih =>
    intro hshape e0 he0 hne0 hpair s
    rw [List.foldl_cons]
    rcases List.mem_cons.mp he0 with he0 | he0
    · subst he0
      rcases hshape e0 (by simp) with hsh | hsh
      · exact absurd hsh hne0
      obtain ⟨hk, hv, hkh, hkl, hfree⟩ := entryShapeOK_spec hsh
      have hstep : occB e0.1.data none (replaceWordAll e0.1.data e0.2.data s) = false := by
        rw [replaceWordAll]
        exact rwGo_no_new_occ hk hv hkh hkl hkh hkl (hpair e0 (by simp) hne0)
          s.length s none none (Nat.le_refl _) rfl (Or.inl rfl)
      exact foldRW_no_occ hkh hkl L
        (fun e' he' => hshape e' (List.mem_cons_of_mem _ he'))
        (fun e' he' hne' => hpair e' (List.mem_cons_of_mem _ he') hne') _ hstep
    · exact ih (fun e' he' => hshape e' (List.mem_cons_of_mem _ he')) e0 he0 hne0
        (fun e' he' hne' => hpair e' (List.mem_cons_of_mem _ he') hne') _

theorem foldRW_id :
    ∀ (L : List (String × String)) (y : List Char),
      (∀ e ∈ L, e.1 = e.2 ∨ occB e.1.data none y = false) →
      L.foldl (fun acc e => replaceWordAll e.1.data e.2.data acc) y = y := by
  intro L
  induction L with
  | nil =>
    intro y _
    rfl
  | cons e L ih =>
    intro y h
    rw [List.foldl_cons]
    have hstep : replaceWordAll e.1.data e.2.data y = y := by
      rcases h e (by simp) with he | he
      · rw [replaceWordAll, he, rwGo_self]
      · rw [replaceWordAll]
        exact rwGo_no_occ e.1.data e.2.data y.length none y he
    rw [hstep]
    exact ih y (fun e' he' => h e' (List.mem_cons_of_mem _ he'))

end Passgage

namespace Passgage

/-! ## Character provenance through the normalizer stages -/

theorem mem_stripToSpace {c : Char} {l : List Char} (h : c ∈ stripToSpace l) :
    c = ' ' ∨ (c ∈ l ∧ isKeptChar c = true) := by
  unfold stripToSpace at h
  rw [List.mem_map] at h
  obtain ⟨c0, hc0, he⟩ := h
  by_cases hk : isKeptChar c0 = true
  · rw [if_pos hk] at he
    right
    subst he
    exact ⟨hc0, hk⟩
  · rw [if_neg hk] at he
    left
    exact he.symm

theorem mem_collapseWs {c : Char} :
    ∀ {l : List Char}, c ∈ collapseWs l → c = ' ' ∨ (c ∈ l ∧ isJsSpace c = false) := by
  intro l
  induction l with
  | nil =>
    intro h
    exact absurd h (by simp [collapseWs])
  | cons c1 tail ih =>
    intro h
    cases tail with
    | nil =>
      rw [show collapseWs [c1] = if isJsSpace c1 then [' '] else [c1] from rfl] at h
      rcases Bool.eq_false_or_eq_true (isJsSpace c1) with hc1 | hc1
      · rw [if_pos hc1] at h
        rw [List.mem_singleton] at h
        left
        exact h
      · rw [if_neg (by simp [hc1])] at h
        rw [List.mem_singleton] at h
        right
        exact ⟨by simp [h], by rw [h]; exact hc1⟩
    | cons c2 rest =>
      rw [show collapseWs (c1 :: c2 :: rest) =
          if isJsSpace c1 && isJsSpace c2 then collapseWs (c2 :: rest)
          else (if isJsSpace c1 then ' ' else c1) :: collapseWs (c2 :: rest)
          from rfl] at h
      by_cases hb : (isJsSpace c1 && isJsSpace c2) = true
      · rw [if_pos hb] at h
        rcases ih h with h' | h'
        · exact Or.inl h'
        · exact Or.inr ⟨List.mem_cons_of_mem _ h'.1, h'.2⟩
      · rw [if_neg hb] at h
        rcases List.mem_cons.mp h with h' | h'
        · rcases Bool.eq_false_or_eq_true (isJsSpace c1) with hc1 | hc1
          · rw [if_pos hc1] at h'
            left
            exact h'
          · rw [if_neg (by simp [hc1])] at h'
            right
            exact ⟨by simp [h'], by rw [h']; exact hc1⟩
        · rcases ih h' with h'' | h''
          · exact Or.inl h''
          · exact Or.inr ⟨List.mem_cons_of_mem _ h''.1, h''.2⟩

theorem mem_jsTrim {c : Char} {l : List Char} (h : c ∈ jsTrim l) : c ∈ l := by
  obtain ⟨spA, spB, hdec, -, -⟩ := jsTrim_decomp l
  rw [hdec]
  simp only [List.mem_append]
  exact Or.inr (Or.inl h)

theorem mem_jsLower {c : Char} {l : List Char} (h : c ∈ jsLower l) :
    ∃ c0 ∈ l, c ∈ lowerChar c0 := by
  unfold jsLower at h
  rw [List.mem_flatMap] at h
  exact h

theorem mem_rwGo {c : Char} (k v : List Char) :
    ∀ (fuel : Nat) (prev : Option Char) (s : List Char),
      c ∈ rwGo k v fuel prev s → c ∈ s ∨ c ∈ v := by
  intro fuel
  induction fuel with
  | zero =>
    intro prev s h
    exact Or.inl h
  | succ fuel ih =>
    intro prev s h
    cases s with
    | nil =>
      rw [rwGo_nil] at h
      exact Or.inl h
    | cons c1 cs =>
      by_cases hm : matchesAt k prev (c1 :: cs) = true
      · rw [rwGo, if_pos hm] at h
        rcases List.mem_append.mp h with h' | h'
        · exact Or.inr h'
        · rcases ih k.getLast? _ h' with h'' | h''
          · exact Or.inl (List.mem_of_mem_drop h'')
          · exact Or.inr h''
      · rw [rwGo, if_neg hm] at h
        rcases List.mem_cons.mp h with h' | h'
        · exact Or.inl (by simp [h'])
        · rcases ih (some c1) cs h' with h'' | h''
          · exact Or.inl (List.mem_cons_of_mem _ h'')
          · exact Or.inr h''

theorem mem_foldRW {c : Char} :
    ∀ (L : List (String × String)) (s : List Char),
      c ∈ L.foldl (fun acc e => replaceWordAll e.1.data e.2.data acc) s →
      c ∈ s ∨ ∃ e ∈ L, c ∈ e.2.data := by
  intro L
  induction L with
  | nil =>
    intro s h
    exact Or.inl h
  | cons e L ih =>
    intro s h
    rw [List.foldl_cons] at h
    rcases ih _ h with h' | h'
    · rw [replaceWordAll] at h'
      rcases mem_rwGo e.1.data e.2.data _ _ _ h' with h'' | h''
      · exact Or.inl h''
      · exact Or.inr ⟨e, by simp, h''⟩
    · obtain ⟨e', he', hc⟩ := h'
      exact Or.inr ⟨e', List.mem_cons_of_mem _ he', hc⟩

/-! ## Lowercased kept characters are fixed by `lowerChar` -/

theorem toNat_ofNat_lt {n : Nat} (h : n < 0xd800) : (Char.ofNat n).toNat = n := by
  unfold Char.ofNat
  rw [dif_pos (Or.inl h)]
  simp [Char.ofNatAux, Char.toNat, UInt32.toNat, BitVec.toNat_ofNatLt]

theorem lowerChar_fixed_ranges {c : Char}
    (h : (97 ≤ c.toNat ∧ c.toNat ≤ 122) ∨ (48 ≤ c.toNat ∧ c.toNat ≤ 57) ∨
      c.toNat = 63) :
    lowerChar c = [c] := by
  have h1 : ¬(('A' ≤ c && c ≤ 'Z') = true) := by
    simp only [Bool.and_eq_true, decide_eq_true_eq]
    rintro ⟨ha, hb⟩
    have ha' : ('A').toNat ≤ c.toNat := ha
    have hb' : c.toNat ≤ ('Z').toNat := hb
    have hA : ('A').toNat = 65 := by decide
    have hZ : ('Z').toNat = 90 := by decide
    omega
  have hlit : ∀ (d : Char), c.toNat ≠ d.toNat → ¬((c == d) = true) := by
    intro d hd he
    rw [beq_iff_eq] at he
    exact hd (by rw [he])
  unfold lowerChar
  rw [if_neg h1,
    if_neg (hlit 'Ç' (by have hx : ('Ç').toNat = 199 := (by decide); omega)),
    if_neg (hlit 'Ğ' (by have hx : ('Ğ').toNat = 286 := (by decide); omega)),
    if_neg (hlit 'İ' (by have hx : ('İ').toNat = 304 := (by decide); omega)),
    if_neg (hlit 'Ö' (by have hx : ('Ö').toNat = 214 := (by decide); omega)),
    if_neg (hlit 'Ş' (by have hx : ('Ş').toNat = 350 := (by decide); omega)),
    if_neg (hlit 'Ü' (by have hx : ('Ü').toNat = 220 := (by decide); omega))]

theorem lowerChar_fixed_of_kept {c0 c : Char} (hmem : c ∈ lowerChar c0)
    (hkept : isKeptChar c = true) : lowerChar c = [c] := by
  unfold lowerChar at hmem
  by_cases hA : ('A' ≤ c0 && c0 ≤ 'Z') = true
  · rw [if_pos hA] at hmem
    rw [List.mem_singleton] at hmem
    subst hmem
    simp only [Bool.and_eq_true, decide_eq_true_eq] at hA
    have h65 : ('A').toNat ≤ c0.toNat := hA.1
    have h90 : c0.toNat ≤ ('Z').toNat := hA.2
    have hA65 : ('A').toNat = 65 := by decide
    have hZ90 : ('Z').toNat = 90 := by decide
    have htn : (Char.ofNat (c0.toNat + 32)).toNat = c0.toNat + 32 :=
      toNat_ofNat_lt (by omega)
    apply lowerChar_fixed_ranges
    rw [htn]
    omega
  · rw [if_neg hA] at hmem
    by_cases hC : (c0 == 'Ç') = true
    · rw [if_pos hC, List.mem_singleton] at hmem
      subst hmem
      decide
    rw [if_neg hC] at hmem
    by_cases hG : (c0 == 'Ğ') = true
    · rw [if_pos hG, List.mem_singleton] at hmem
      subst hmem
      decide
    rw [if_neg hG] at hmem
    by_cases hI : (c0 == 'İ') = true
    · rw [if_pos hI] at hmem
      rcases List.mem_cons.mp hmem with hmem | hmem
      · subst hmem
        decide
      · rw [List.mem_singleton] at hmem
        subst hmem
        exact absurd hkept (by decide)
    rw [if_neg hI] at hmem
    by_cases hO : (c0 == 'Ö') = true
    · rw [if_pos hO, List.mem_singleton] at hmem
      subst hmem
      decide
    rw [if_neg hO] at hmem
    by_cases hS : (c0 == 'Ş') = true
    · rw [if_pos hS, List.mem_singleton] at hmem
      subst hmem
      decide
    rw [if_neg hS] at hmem
    by_cases hU : (c0 == 'Ü') = true
    · rw [if_pos hU, List.mem_singleton] at hmem
      subst hmem
      decide
    rw [if_neg hU, List.mem_singleton] at hmem
    subst hmem
    unfold lowerChar
    rw [if_neg hA, if_neg hC, if_neg hG, if_neg hI, if_neg hO, if_neg hS, if_neg hU]

theorem goodChar_of_mem_strip {s : List Char} {c : Char}
    (h : c ∈ stripToSpace (collapseWs (jsTrim (jsLower s)))) : goodChar c = true := by
  rcases mem_stripToSpace h with h1 | ⟨h1, hkept⟩
  · subst h1
    decide
  rcases mem_collapseWs h1 with h2 | ⟨h2, hns⟩
  · subst h2
    decide
  obtain ⟨c0, hc0, hmem⟩ := mem_jsLower (mem_jsTrim h2)
  unfold goodChar
  rw [hkept, lowerChar_fixed_of_kept hmem hkept, hns]
  simp

end Passgage

namespace Passgage

/-! ## Canonical spacing of the normalizer output -/

theorem collapseWs_head_nonspace {c : Char} (hc : isJsSpace c = false) :
    ∀ (t : List Char), (collapseWs (c :: t)).head? = some c := by
  intro t
  cases t with
  | nil =>
    rw [show collapseWs [c] = if isJsSpace c then [' '] else [c] from rfl,
      if_neg (by simp [hc])]
    rfl
  | cons c2 rest =>
    rw [show collapseWs (c :: c2 :: rest) =
        if isJsSpace c && isJsSpace c2 then collapseWs (c2 :: rest)
        else (if isJsSpace c then ' ' else c) :: collapseWs (c2 :: rest) from rfl,
      if_neg (by simp [hc]), if_neg (by simp [hc])]
    rfl

theorem noDoubleSpace_cons_tail {c : Char} {l : List Char}
    (h : noDoubleSpace (c :: l) = true) : noDoubleSpace l = true := by
  cases l with
  | nil => rfl
  | cons e es =>
    rw [show noDoubleSpace (c :: e :: es) =
        (!(isJsSpace c && isJsSpace e) && noDoubleSpace (e :: es)) from rfl,
      Bool.and_eq_true] at h
    exact h.2

theorem noDoubleSpace_append_right {a b : List Char}
    (h : noDoubleSpace (a ++ b) = true) : noDoubleSpace b = true := by
  induction a with
  | nil => exact h
  | cons c a' ih => exact ih (noDoubleSpace_cons_tail h)

theorem noDoubleSpace_append_left : ∀ {a : List Char} (b : List Char),
    noDoubleSpace (a ++ b) = true → noDoubleSpace a = true := by
  intro a
  induction a with
  | nil =>
    intro b _
    rfl
  | cons c a' ih =>
    intro b h
    cases a' with
    | nil => rfl
    | cons d a'' =>
      have h' : noDoubleSpace (c :: d :: (a'' ++ b)) = true := h
      rw [show noDoubleSpace (c :: d :: (a'' ++ b)) =
          (!(isJsSpace c && isJsSpace d) && noDoubleSpace (d :: (a'' ++ b))) from rfl,
        Bool.and_eq_true] at h'
      rw [show noDoubleSpace (c :: d :: a'') =
          (!(isJsSpace c && isJsSpace d) && noDoubleSpace (d :: a'')) from rfl,
        Bool.and_eq_true]
      exact ⟨h'.1, ih b h'.2⟩

theorem noDoubleSpace_collapseWs : ∀ (z : List Char),
    noDoubleSpace (collapseWs z) = true := by
  intro z
  induction z with
  | nil => rfl
  | cons c1 tail ih =>
    cases tail with
    | nil =>
      rcases Bool.eq_false_or_eq_true (isJsSpace c1) with hc1 | hc1
      · rw [show collapseWs [c1] = if isJsSpace c1 then [' '] else [c1] from rfl,
          if_pos hc1]
        rfl
      · rw [show collapseWs [c1] = if isJsSpace c1 then [' '] else [c1] from rfl,
          if_neg (by simp [hc1])]
        rfl
    | cons c2 rest =>
      by_cases hb : (isJsSpace c1 && isJsSpace c2) = true
      · rw [show collapseWs (c1 :: c2 :: rest) =
            if isJsSpace c1 && isJsSpace c2 then collapseWs (c2 :: rest)
            else (if isJsSpace c1 then ' ' else c1) :: collapseWs (c2 :: rest)
            from rfl, if_pos hb]
        exact ih
      · rw [show collapseWs (c1 :: c2 :: rest) =
            if isJsSpace c1 && isJsSpace c2 then collapseWs (c2 :: rest)
            else (if isJsSpace c1 then ' ' else c1) :: collapseWs (c2 :: rest)
            from rfl, if_neg hb]
        cases hc : collapseWs (c2 :: rest) with
        | nil => rfl
        | cons e es =>
          rw [show noDoubleSpace ((if isJsSpace c1 then ' ' else c1) :: e :: es) =
              (!(isJsSpace (if isJsSpace c1 then ' ' else c1) && isJsSpace e) &&
                noDoubleSpace (e :: es)) from rfl, Bool.and_eq_true]
          refine ⟨?_, by rw [← hc]; exact ih⟩
          rw [Bool.not_eq_true', Bool.and_eq_false_iff]
          rcases Bool.eq_false_or_eq_true (isJsSpace c1) with hc1 | hc1
          · have hc2 : isJsSpace c2 = false := by
              rcases Bool.eq_false_or_eq_true (isJsSpace c2) with hc2 | hc2
              · exact absurd (by rw [hc1, hc2]; rfl) hb
              · exact hc2
            have hhead := collapseWs_head_nonspace hc2 rest
            rw [hc] at hhead
            injection hhead with he
            right
            rw [he]
            exact hc2
          · left
            rw [if_neg (by simp [hc1])]
            exact hc1

theorem jsTrim_head_not_space (z : List Char) {x : Char}
    (h : (jsTrim z).head? = some x) : isJsSpace x = false := by
  unfold jsTrim at h
  rw [List.head?_reverse] at h
  have hne : (z.dropWhile isJsSpace).reverse.dropWhile isJsSpace ≠ [] := by
    intro e
    rw [e] at h
    exact Option.noConfusion h
  have hsuf : (z.dropWhile isJsSpace).reverse.dropWhile isJsSpace <:+
      (z.dropWhile isJsSpace).reverse := List.dropWhile_suffix isJsSpace
  obtain ⟨u, hu⟩ := hsuf
  have h2 : ((z.dropWhile isJsSpace).reverse).getLast? = some x := by
    rw [← hu, List.getLast?_append_of_ne_nil u hne]
    exact h
  rw [List.getLast?_reverse] at h2
  have h3 := List.head?_dropWhile_not isJsSpace z
  rw [h2] at h3
  simpa using h3

theorem jsTrim_last_not_space (z : List Char) {x : Char}
    (h : (jsTrim z).getLast? = some x) : isJsSpace x = false := by
  unfold jsTrim at h
  rw [List.getLast?_reverse] at h
  have h3 := List.head?_dropWhile_not isJsSpace (z.dropWhile isJsSpace).reverse
  rw [h] at h3
  simpa using h3

end Passgage

namespace Passgage

/-! ## Unpacking `goodChar` and `canonicalSpacing` -/

theorem goodChar_spec {c : Char} (h : goodChar c = true) :
    isKeptChar c = true ∧ lowerChar c = [c] ∧ (isJsSpace c = false ∨ c = ' ') := by
  unfold goodChar at h
  simp only [Bool.and_eq_true, beq_iff_eq, Bool.or_eq_true, Bool.not_eq_true'] at h
  refine ⟨h.1.1, h.1.2, ?_⟩
  rcases h.2 with h2 | h2
  · exact Or.inl h2
  · exact Or.inr h2

theorem canonicalSpacing_spec {l : List Char} (h : canonicalSpacing l = true) :
    noDoubleSpace l = true ∧ (∀ x, l.head? = some x → isJsSpace x = false) ∧
      (∀ x, l.getLast? = some x → isJsSpace x = false) := by
  unfold canonicalSpacing at h
  rw [Bool.and_eq_true, Bool.and_eq_true] at h
  refine ⟨h.1.1, ?_, ?_⟩
  · intro x hx
    have h2 := h.1.2
    rw [hx] at h2
    simpa using h2
  · intro x hx
    have h2 := h.2
    rw [hx] at h2
    simpa using h2

theorem canonicalSpacing_jsTrim_collapse (z : List Char) :
    canonicalSpacing (jsTrim (collapseWs z)) = true := by
  unfold canonicalSpacing
  rw [Bool.and_eq_true, Bool.and_eq_true]
  refine ⟨⟨?_, ?_⟩, ?_⟩
  · obtain ⟨spA, spB, hdec, -, -⟩ := jsTrim_decomp (collapseWs z)
    have hnd := noDoubleSpace_collapseWs z
    rw [hdec] at hnd
    exact noDoubleSpace_append_left _ (noDoubleSpace_append_right hnd)
  · rcases e : (jsTrim (collapseWs z)).head? with _ | x
    · rfl
    · have := jsTrim_head_not_space (collapseWs z) e
      simpa using this
  · rcases e : (jsTrim (collapseWs z)).getLast? with _ | x
    · rfl
    · have := jsTrim_last_not_space (collapseWs z) e
      simpa using this

/-! ## The normalizer stages fix an already canonical string -/

theorem jsLower_fixed : ∀ (y : List Char), (∀ c ∈ y, lowerChar c = [c]) →
    jsLower y = y := by
  intro y
  induction y with
  | nil =>
    intro _
    rfl
  | cons c t ih =>
    intro h
    unfold jsLower
    rw [List.flatMap_cons, h c (by simp)]
    have h2 := ih (fun c' hc' => h c' (List.mem_cons_of_mem _ hc'))
    unfold jsLower at h2
    rw [h2]
    rfl

theorem stripToSpace_fixed : ∀ (y : List Char), (∀ c ∈ y, isKeptChar c = true) →
    stripToSpace y = y := by
  intro y
  induction y with
  | nil =>
    intro _
    rfl
  | cons c t ih =>
    intro h
    unfold stripToSpace
    simp only [List.map_cons]
    rw [if_pos (h c (by simp))]
    have h2 := ih (fun c' hc' => h c' (List.mem_cons_of_mem _ hc'))
    unfold stripToSpace at h2
    rw [h2]

theorem collapseWs_fixed : ∀ (y : List Char),
    (∀ c ∈ y, isJsSpace c = false ∨ c = ' ') → noDoubleSpace y = true →
    collapseWs y = y := by
  intro y
  induction y with
  | nil =>
    intro _ _
    rfl
  | cons c1 t ih =>
    intro hc hnd
    cases t with
    | nil =>
      rcases hc c1 (by simp) with h1 | h1
      · rw [show collapseWs [c1] = if isJsSpace c1 then [' '] else [c1] from rfl,
          if_neg (by simp [h1])]
      · subst h1
        rw [show collapseWs [' '] = if isJsSpace ' ' then [' '] else [' '] from rfl,
          if_pos (by decide)]
    | cons c2 rest =>
      have hpair : (isJsSpace c1 && isJsSpace c2) = false := by
        have h2 := hnd
        rw [show noDoubleSpace (c1 :: c2 :: rest) =
            (!(isJsSpace c1 && isJsSpace c2) && noDoubleSpace (c2 :: rest)) from rfl,
          Bool.and_eq_true, Bool.not_eq_true'] at h2
        exact h2.1
      rw [show collapseWs (c1 :: c2 :: rest) =
          if isJsSpace c1 && isJsSpace c2 then collapseWs (c2 :: rest)
          else (if isJsSpace c1 then ' ' else c1) :: collapseWs (c2 :: rest)
          from rfl, if_neg (by simp [hpair])]
      have htail := ih (fun c' hc' => hc c' (List.mem_cons_of_mem _ hc'))
        (noDoubleSpace_cons_tail hnd)
      rw [htail]
      rcases hc c1 (by simp) with h1 | h1
      · rw [if_neg (by simp [h1])]
      · subst h1
        rw [if_pos (by decide)]

theorem jsTrim_fixed {y : List Char}
    (hhead : ∀ x, y.head? = some x → isJsSpace x = false)
    (hlast : ∀ x, y.getLast? = some x → isJsSpace x = false) : jsTrim y = y := by
  unfold jsTrim
  have h1 : y.dropWhile isJsSpace = y := by
    cases y with
    | nil => rfl
    | cons c t =>
      rw [List.dropWhile_cons_of_neg (by simp [hhead c rfl])]
  rw [h1]
  have h2 : y.reverse.dropWhile isJsSpace = y.reverse := by
    cases hy : y.reverse with
    | nil => rfl
    | cons c t =>
      have h3 := List.head?_reverse y
      rw [hy] at h3
      simp only [List.head?_cons] at h3
      rw [List.dropWhile_cons_of_neg (by simp [hlast c h3.symm])]
  rw [h2, List.reverse_reverse]

end Passgage

namespace Passgage

/-! ## The Turkish typo map satisfies every side condition -/

set_option maxHeartbeats 4000000 in
theorem typoMapOK_holds : typoMapOK TURKISH_TYPO_MAP = true := by decide

/-! ## The normalizer output is canonical and free of typo-map keys -/

theorem normalizeTurkishL_good (s : List Char) :
    (∀ c ∈ normalizeTurkishL s, goodChar c = true) ∧
    canonicalSpacing (normalizeTurkishL s) = true ∧
    (∀ e ∈ TURKISH_TYPO_MAP, e.1 ≠ e.2 →
      occB e.1.data none (normalizeTurkishL s) = false) := by
  unfold normalizeTurkishL
  refine ⟨?_, canonicalSpacing_jsTrim_collapse _, ?_⟩
  · intro c hc
    rcases mem_collapseWs (mem_jsTrim hc) with h3 | ⟨h3, -⟩
    · subst h3
      decide
    · unfold applyTypoMap at h3
      rcases mem_foldRW TURKISH_TYPO_MAP _ h3 with h4 | ⟨e, he, hc'⟩
      · exact goodChar_of_mem_strip h4
      · exact (typoMapOK_values typoMapOK_holds e he).1 c hc'
  · intro e he hne
    have hshape := typoMapOK_shape typoMapOK_holds
    rcases hshape e he with hsh | hsh
    · exact absurd hsh hne
    obtain ⟨hk, hv, hkh, hkl, hfree⟩ := entryShapeOK_spec hsh
    have hz : occB e.1.data none
        (applyTypoMap (stripToSpace (collapseWs (jsTrim (jsLower s))))) = false := by
      unfold applyTypoMap
      exact foldRW_establishes TURKISH_TYPO_MAP hshape e he hne
        (fun e' he' hne' => typoMapOK_pairs typoMapOK_holds e he hne e' he') _
    have hcz := occB_collapse hkh hfree _ none none rfl hz
    exact occB_jsTrim hkh _ none none rfl hcz

theorem normalizeTurkishL_fixed_of {y : List Char}
    (hgood : ∀ c ∈ y, goodChar c = true)
    (hcs : canonicalSpacing y = true)
    (hocc : ∀ e ∈ TURKISH_TYPO_MAP, e.1 ≠ e.2 → occB e.1.data none y = false) :
    normalizeTurkishL y = y := by
  have hspec := canonicalSpacing_spec hcs
  have hlower : jsLower y = y :=
    jsLower_fixed y (fun c hc => (goodChar_spec (hgood c hc)).2.1)
  have htrim : jsTrim y = y := jsTrim_fixed hspec.2.1 hspec.2.2
  have hcollapse : collapseWs y = y :=
    collapseWs_fixed y (fun c hc => (goodChar_spec (hgood c hc)).2.2) hspec.1
  have hstrip : stripToSpace y = y :=
    stripToSpace_fixed y (fun c hc => (goodChar_spec (hgood c hc)).1)
  have hatm : applyTypoMap y = y := by
    unfold applyTypoMap
    apply foldRW_id
    intro e he
    by_cases hne : e.1 = e.2
    · left
      rw [hne]
    · right
      exact hocc e he hne
  unfold normalizeTurkishL
  rw [hlower, htrim, hcollapse, hstrip, hatm, hcollapse, htrim]

theorem normalizeTurkishL_idem (l : List Char) :
    normalizeTurkishL (normalizeTurkishL l) = normalizeTurkishL l := by
  obtain ⟨hg, hc, ho⟩ := normalizeTurkishL_good l
  exact normalizeTurkishL_fixed_of hg hc ho

theorem typoMap_value_fixedL (e : String × String) (he : e ∈ TURKISH_TYPO_MAP) :
    normalizeTurkishL e.2.data = e.2.data := by
  apply normalizeTurkishL_fixed_of
  · exact fun c hc => (typoMapOK_values typoMapOK_holds e he).1 c hc
  · exact (typoMapOK_values typoMapOK_holds e he).2
  · intro e' he' hne'
    have hp := typoMapOK_pairs typoMapOK_holds e' he' hne' e he
    have h1 := pairOK_sc1 hp
    rw [occStart_nil_right] at h1
    exact h1

/-- C2: the normalizer is idempotent — `normalizeTurkish (normalizeTurkish x)`
equals `normalizeTurkish x` for every input string `x` — and every replacement
value of the static typo table `TURKISH_TYPO_MAP` is itself a fixed point of
`normalizeTurkish`. -/
theorem normalizeTurkish_idempotent :
    (∀ s : String, normalizeTurkish (normalizeTurkish s) = normalizeTurkish s) ∧
    (∀ e ∈ TURKISH_TYPO_MAP, normalizeTurkish e.2 = e.2) := by
  constructor
  · intro s
    by_cases hs : s = ""
    · subst hs
      rfl
    · have h1 : normalizeTurkish s = ⟨normalizeTurkishL s.data⟩ := by
        unfold normalizeTurkish
        rw [if_neg hs]
      obtain ⟨n, hn⟩ : ∃ n, normalizeTurkishL s.data = n := ⟨_, rfl⟩
      rw [h1, hn]
      by_cases hy : (⟨n⟩ : String) = ""
      · rw [hy]
        rfl
      · unfold normalizeTurkish
        rw [if_neg hy]
        show (⟨normalizeTurkishL n⟩ : String) = ⟨n⟩
        rw [← hn, normalizeTurkishL_idem]
  · intro e he
    by_cases hv : e.2 = ""
    · rw [hv]
      rfl
    · unfold normalizeTurkish
      rw [if_neg hv, typoMap_value_fixedL e he]

end Passgage
